import Mathlib

/-
Verification of the trace-monoid implementation in
src/sage/monoids/trace_monoid.py (classes TraceMonoidElement,
FoataNormalForm, TraceMonoid).

Generators are natural-number indices.  A trace element is stored, as in
the Python code, as a run-length list of pairs (generator, multiplicity)
(the `_element_list`).  The independence relation is a finite set of
ordered pairs of generator indices, exactly as the Python code stores
`self.independence` (a Sage `Set` of the pairs given to the constructor,
with no symmetrization and no validation).
-/

namespace TraceMon

abbrev Rel := Finset (ℕ × ℕ)

abbrev Run := ℕ × ℕ

/-- Merge adjacent runs that share a generator (run-length recompression). -/
def mergeRuns : List Run → List Run
  | [] => []
  | r :: rest =>
    match mergeRuns rest with
    | [] => [r]
    | s :: tail => if r.1 = s.1 then (r.1, r.2 + s.2) :: tail else r :: s :: tail

/-- Modelled from the spec: `FreeMonoidElement` construction (the
`self.parent(...)` / `monoid(...)` calls) lives outside src/.  Per spec §3 a
Trace stores runs of multiplicity ≥ 1 with no two adjacent runs sharing a
generator, so construction drops zero-multiplicity runs and merges adjacent
equal-generator runs. -/
def mkRuns (l : List Run) : List Run := mergeRuns (l.filter (fun r => 0 < r.2))

/-- `TraceMonoidElement._plain_elements`: the occurrence-expanded letter word. -/
def expand (el : List Run) : List ℕ := (el.map (fun r => List.replicate r.2 r.1)).flatten

/-- Modelled from the spec: `FreeMonoidElement.__mul__` lives outside src/.
Per spec §3 multiplication appends run sequences, merging boundary runs that
share a generator. -/
def mulRuns (a b : List Run) : List Run := mergeRuns (a ++ b)

/-- The inner `for j in range(i, -1, -1)` scan of
`TraceMonoidElement._sort_lex_nform`: starting from position `i` (the run
being placed, with generator `x`), keep stepping left while the run to the
left has a strictly greater generator that is independent of `x`; returns the
stopping position `j`. -/
def downScan (I : Rel) (el : List Run) (x : ℕ) : ℕ → ℕ
  | 0 => 0
  | j + 1 =>
    match el.get? j with
    | some p => if p.1 > x ∧ (x, p.1) ∈ I then downScan I el x j else j + 1
    | none => j + 1

/-- One iteration of the outer `for i in range(len(elements))` loop of
`_sort_lex_nform`: remove the run at `i` and re-insert it at the stopping
position of the left scan (a no-op when the scan stops at `i`). -/
def sortStep (I : Rel) (el : List Run) (i : ℕ) : List Run :=
  match el.get? i with
  | none => el
  | some r =>
    let j := downScan I el r.1 i
    if j = i then el else (el.eraseIdx i).insertIdx j r

/-- `TraceMonoidElement._sort_lex_nform`: insertion-based normal form; the
final `self.parent(elements)` builds the resulting element. -/
def sortLexNF (I : Rel) (el : List Run) : List Run :=
  mkRuns ((List.range el.length).foldl (sortStep I) el)

/-- Point update of the per-generator marker stacks (head of the list is the
top of the Python stack). -/
def upd (st : ℕ → List Bool) (g : ℕ) (v : List Bool) : ℕ → List Bool :=
  fun h => if h = g then v else st h

/-- Ascending insertion of one element into a sorted list. -/
def insertSorted (x : ℕ) : List ℕ → List ℕ
  | [] => [x]
  | y :: ys => if x ≤ y then x :: y :: ys else y :: insertSorted x ys

/-- Insertion sort, ascending (the Python builtin `sorted`). -/
def sortAsc (l : List ℕ) : List ℕ := l.foldr insertSorted []

/-- `generators_set` in `TraceMonoidElement._dependence_stack`: the sorted
list of the run generators of the element list, duplicates included. -/
def gensList (el : List Run) : List ℕ := sortAsc (el.map Prod.fst)

/-- The keys of the `stacks` ordered dictionary: the sorted run generators
without duplicates. -/
def gensSet (el : List Run) : List ℕ := (gensList el).dedup

/-- Processing one element `(g, m)` in `_dependence_stack`: push `m` ready
markers on `g`'s stack, and `m` blocked markers on the stack of every other
generator `h` with `(g, h)` not independent — once per occurrence of `h` in
`generators_set`, as in the Python loop. -/
def pushRun (I : Rel) (gl : List ℕ) (r : Run) (st : ℕ → List Bool) : ℕ → List Bool :=
  gl.foldl
    (fun s h => if h ≠ r.1 ∧ (r.1, h) ∉ I then upd s h (List.replicate r.2 false ++ s h) else s)
    (upd st r.1 (List.replicate r.2 true ++ st r.1))

/-- `TraceMonoidElement._dependence_stack`: the element list is scanned in
reverse, so the first run's markers end up on top. -/
def buildStacks (I : Rel) (gl : List ℕ) : List Run → ℕ → List Bool
  | [] => fun _ => []
  | r :: rest => pushRun I gl r (buildStacks I gl rest)

/-- After generator `g` fires, pop one marker from the stack of every other
generator `h` with `(g, h)` not independent — once per occurrence of `h` in
`generators_set`, as in the Python loop. -/
def resolve (I : Rel) (gl : List ℕ) (g : ℕ) (st : ℕ → List Bool) : ℕ → List Bool :=
  gl.foldl (fun s h => if h ≠ g ∧ (g, h) ∉ I then upd s h (s h).tail else s) st

/-- The emission loop of `TraceMonoidElement._stack_lex_nform`: scan the
stacks in ascending generator order; the first generator whose top marker is
ready fires (its marker is popped, it is emitted, and blocking markers of
dependent generators are popped).  When no generator fires the loop
terminates if every stack is empty and otherwise loops forever, which the
embedding reports as `none`; the fuel argument is an upper bound on the
number of firings, so `none` is returned exactly on divergence. -/
def stackLoop (I : Rel) (gl gs : List ℕ) : ℕ → (ℕ → List Bool) → List ℕ → Option (List ℕ)
  | 0, _, _ => none
  | fuel + 1, st, acc =>
    match gs.find? (fun g => (st g).head? == some true) with
    | some g => stackLoop I gl gs fuel (resolve I gl g (upd st g (st g).tail)) (acc ++ [g])
    | none => if gs.all (fun g => (st g).isEmpty) then some acc else none

/-- `TraceMonoidElement._stack_lex_nform`: empty elements are returned as
they are; otherwise the emitted letters are rebuilt into an element via
`monoid([(e, 1) for e in elements])`. -/
def stackLexNF (I : Rel) (el : List Run) : Option (List Run) :=
  if el.isEmpty then some el
  else
    (stackLoop I (gensList el) (gensSet el) ((expand el).length + 1)
        (buildStacks I (gensList el) el) []).map
      (fun out => mkRuns (out.map (fun e => (e, 1))))

/-- One collection scan of `TraceMonoidElement.foata_norm_form`: every
generator whose top marker is ready is appended to the current step and its
own marker popped (blocking markers are resolved only after the scan). -/
def foataCollect (gs : List ℕ) (st : ℕ → List Bool) : List ℕ × (ℕ → List Bool) :=
  gs.foldl
    (fun p g => if (p.2 g).head? = some true then (p.1 ++ [g], upd p.2 g (p.2 g).tail) else p)
    ([], st)

/-- The round loop of `foata_norm_form`: collect a step, stop when all
stacks are empty, resolve the blocking markers of the collected generators,
append the step.  A round that collects nothing while stacks remain is an
infinite loop in the Python code, reported as `none` here. -/
def foataLoop (I : Rel) (gl gs : List ℕ) :
    ℕ → (ℕ → List Bool) → List (List ℕ) → Option (List (List ℕ))
  | 0, _, _ => none
  | fuel + 1, st, acc =>
    if gs.all (fun g => (st g).isEmpty) then some acc
    else
      let p := foataCollect gs st
      if p.1.isEmpty then none
      else foataLoop I gl gs fuel (p.1.foldl (fun s g => resolve I gl g s) p.2) (acc ++ [p.1])

/-- `TraceMonoidElement.foata_norm_form`, returning the steps as lists of
generators (each step is then rebuilt as `monoid([(v, 1) for v in step])`). -/
def foataNF (I : Rel) (el : List Run) : Option (List (List ℕ)) :=
  if el.isEmpty then some []
  else foataLoop I (gensList el) (gensSet el) ((expand el).length + 1)
    (buildStacks I (gensList el) el) []

/-- Python exception classes raised by the embedded functions. -/
inductive PyErr where
  | valueError
  | indexError
deriving DecidableEq

/-- `TraceMonoidElement.lexic_norm_form`: dispatch on the algorithm name;
an unknown algorithm raises `ValueError`. -/
def lexicNormForm (I : Rel) (alg : String) (el : List Run) :
    Except PyErr (Option (List Run)) :=
  if alg = "sort" then .ok (some (sortLexNF I el))
  else if alg = "stack" then .ok (stackLexNF I el)
  else .error .valueError

/-- The `TraceMonoid` parent: generator count and the stored independence
relation. -/
structure TraceMonoid where
  ngens : ℕ
  independence : Rel

/-- `TraceMonoid.__init__` on index pairs: the given pairs are stored as a
set (`Set(I)`), with no symmetrization and no validation. -/
def mkTraceMonoid (n : ℕ) (I : List (ℕ × ℕ)) : TraceMonoid := ⟨n, I.toFinset⟩

/-- The vertex set of `TraceMonoid.independence_graph`: Sage's
`Graph(edge_list)` has exactly the endpoints of the given edges as vertices,
so generators that occur in no independence pair are absent. -/
def verts (I : Rel) : Finset ℕ := I.biUnion (fun p => {p.1, p.2})

/-- Adjacency in the independence graph (undirected, built from one edge per
unordered pair of `self.independence`). -/
def adjacent (I : Rel) (g h : ℕ) : Prop := g ≠ h ∧ ((g, h) ∈ I ∨ (h, g) ∈ I)

instance (I : Rel) (g h : ℕ) : Decidable (adjacent I g h) := by
  unfold adjacent; infer_instance

def isClique (I : Rel) (S : Finset ℕ) : Prop := ∀ g ∈ S, ∀ h ∈ S, g ≠ h → adjacent I g h

instance (I : Rel) (S : Finset ℕ) : Decidable (isClique I S) := by
  unfold isClique; infer_instance

/-- Modelled from the spec: the graph collaborator is outside src/; per spec
§4.5 and §6 it returns the clique polynomial coefficients, `c_k` = number of
`k`-element cliques, `c_0 = 1` for the empty clique. -/
def cliqueCount (I : Rel) (k : ℕ) : ℕ :=
  (((verts I).powersetCard k).filter (fun S => isClique I S)).card

/-- `clique_polynomial().coefficients()`: the nonzero coefficients of the
clique polynomial in ascending degree order. -/
def cliqueSeq (I : Rel) : List ℕ :=
  ((List.range ((verts I).card + 1)).map (cliqueCount I)).filter (fun c => c ≠ 0)

/-- The coefficients of the denominator `sum(((-1)**i) * coeff * (t**i))` of
`TraceMonoid.dependence_polynomial`. -/
def signedSeq (I : Rel) : List ℤ :=
  (cliqueSeq I).enum.map (fun p => (-1) ^ p.1 * (p.2 : ℤ))

/-- One coefficient of the power-series expansion of `1 / D(t)` where
`prev` lists the already-computed coefficients and `d` the coefficients of
`D`: from `D(t)·A(t) = 1`, `a_n = [n = 0] - sum d_k · a_(n-k)` for `d_0 = 1`. -/
def nextCoeff (d : List ℤ) (prev : List ℤ) : ℤ :=
  (if prev.length = 0 then 1 else 0) -
    ((List.range prev.length).map (fun j => d.getD (prev.length - j) 0 * prev.getD j 0)).sum

/-- Modelled from the spec: the power-series backend (`PowerSeriesRing`) is
outside src/; per spec §4.5 and §6 it expands the rational function `1/D(t)`
to the requested precision over the integers.  The dependence polynomial
always has constant coefficient `c_0 = 1` (the empty clique), which makes
the expansion exact. -/
def seriesCoeffs (d : List ℤ) : ℕ → List ℤ
  | 0 => []
  | n + 1 =>
    let prev := seriesCoeffs d n
    prev ++ [nextCoeff d prev]

/-- Python list indexing: negative indices count from the end, and an index
out of range raises `IndexError`. -/
def pyGet (l : List ℤ) (i : ℤ) : Except PyErr ℤ :=
  let k : ℤ := if i < 0 then i + l.length else i
  if 0 ≤ k ∧ k < l.length then .ok (l.getD k.toNat 0) else .error .indexError

/-- `TraceMonoid.number_of_words`: expand the dependence polynomial to
`default_prec = length + 1`, take the nonzero coefficients
(`.coefficients()`), and index the resulting list with `length` using
Python indexing.  No validation of `length` is performed. -/
def numberOfWords (M : TraceMonoid) (len : ℤ) : Except PyErr ℤ :=
  pyGet ((seriesCoeffs (signedSeq M.independence) (len + 1).toNat).filter (fun c => c ≠ 0)) len

/-- `word._element_list[-1][0]`: the generator of the last run. -/
def lastGen (w : List Run) : ℕ := ((w.getLast?).map Prod.fst).getD 0

/-- The recursion of `TraceMonoid.words` on nonnegative lengths: every word
of length `k+1` is a word of length `k` extended by a generator `s`, except
when `s` is independent of the last generator and strictly smaller. -/
def wordsNat (M : TraceMonoid) : ℕ → List (List Run)
  | 0 => [[]]
  | 1 => (List.range M.ngens).map (fun g => [(g, 1)])
  | k + 2 =>
    (wordsNat M (k + 1)).flatMap (fun w =>
      ((List.range M.ngens).filter
        (fun s => decide (¬((lastGen w, s) ∈ M.independence ∧ lastGen w > s)))).map
        (fun s => mulRuns w [(s, 1)]))

/-- `TraceMonoid.words`: negative lengths raise `ValueError`. -/
def words (M : TraceMonoid) (len : ℤ) : Except PyErr (List (List Run)) :=
  if len < 0 then .error .valueError else .ok (wordsNat M len.toNat)

/-- The edge relation of `TraceMonoidElement.dependency_graph` on the
occurrence positions of the letter word `w`: position `v` points to a later
position `i` whenever the ordered pair of their generators
`(w[i], w[v])` is not in the independence relation. -/
def depEdge (I : Rel) (w : List ℕ) (v i : ℕ) : Prop :=
  v < i ∧ i < w.length ∧ (w.getD i 0, w.getD v 0) ∉ I

/-- One commutation: two adjacent letters that form an independence pair may
be swapped. -/
inductive SwapStep (I : Rel) : List ℕ → List ℕ → Prop
  | swap (u v : List ℕ) (x y : ℕ) : (x, y) ∈ I → SwapStep I (u ++ x :: y :: v) (u ++ y :: x :: v)

/-- The trace congruence: the equivalence closure of adjacent commutations. -/
def Congr (I : Rel) (w w' : List ℕ) : Prop := Relation.EqvGen (SwapStep I) w w'

/-- The stored relation is symmetric (the spec's data-model invariant). -/
def SymRel (I : Rel) : Prop := ∀ a b : ℕ, (a, b) ∈ I → (b, a) ∈ I

/-- The stored relation is irreflexive (the spec's data-model invariant). -/
def IrrRel (I : Rel) : Prop := ∀ a : ℕ, (a, a) ∉ I

/-- Letters relevant to generator `g`: those whose occurrence pushes a
marker on `g`'s stack, i.e. letters `x` with `(x, g)` not independent
(`g` itself included when the relation is irreflexive). -/
def relKeep (I : Rel) (g : ℕ) (x : ℕ) : Bool := decide ((x, g) ∉ I)

/-- Generator `g` can be moved to the front of `w` by commutations: the
first letter of `w` that is relevant to `g` is `g` itself. -/
def movable (I : Rel) (g : ℕ) (w : List ℕ) : Prop :=
  (w.filter (relKeep I g)).head? = some g

instance (I : Rel) (g : ℕ) (w : List ℕ) : Decidable (movable I g w) := by
  unfold movable; infer_instance

/-- Boolean form of `movable`. -/
def movableb (I : Rel) (g : ℕ) (w : List ℕ) : Bool :=
  (w.filter (relKeep I g)).head? == some g

/-- Reference description of the emission order of `_stack_lex_nform`: emit
the least movable generator, remove its first occurrence, repeat. -/
def nfAux (I : Rel) (gs : List ℕ) (w : List ℕ) : List ℕ :=
  match h : gs.find? (fun g => movableb I g w) with
  | none => []
  | some g => g :: nfAux I gs (w.erase g)
termination_by w.length
decreasing_by
  have hp : movableb I g w = true := @List.find?_some ℕ (fun x => movableb I x w) g gs h
  have hg : (w.filter (relKeep I g)).head? = some g := by
    have hb : ((w.filter (relKeep I g)).head? == some g) = true := hp
    exact beq_iff_eq.mp hb
  have hmem : g ∈ w :=
    List.mem_of_mem_filter (List.mem_of_mem_head? (by rw [hg]; exact rfl))
  have hne : w ≠ [] := by rintro rfl; simp at hmem
  rw [List.length_erase_of_mem hmem]
  exact Nat.sub_lt (List.length_pos.mpr hne) Nat.one_pos

/-- The marker block that one letter `x` contributes to the stack of
generator `h`: its own occurrence pushes one ready marker, a dependent
occurrence pushes one blocked marker per occurrence of `h` in
`generators_set`. -/
def letterBlock (I : Rel) (gl : List ℕ) (h x : ℕ) : List Bool :=
  if x = h then [true]
  else if (x, h) ∉ I then List.replicate (gl.count h) false
  else []

/-- The stacks determined by a letter word: the concatenation of the letter
blocks, first letter on top. -/
def stacksOf (I : Rel) (gl : List ℕ) (w : List ℕ) (h : ℕ) : List Bool :=
  (w.map (letterBlock I gl h)).flatten

/-- The run-length representation invariant: no two adjacent runs share a
generator. -/
def noAdjDup (l : List Run) : Prop := List.Chain' (fun a b => a.1 ≠ b.1) l

/-- All multiplicities are positive. -/
def allPos (l : List Run) : Prop := ∀ r ∈ l, 0 < r.2

instance (l : List Run) : Decidable (allPos l) := by
  unfold allPos; infer_instance

/-- No adjacent pair of runs violates the insertion algorithm's move
condition: the right run cannot be moved past the left one. -/
def noViol (I : Rel) (l : List Run) : Prop :=
  List.Chain' (fun a b => ¬(a.1 > b.1 ∧ (b.1, a.1) ∈ I)) l

theorem mergeRuns_head_fst (l : List Run) :
    (mergeRuns l).head?.map Prod.fst = l.head?.map Prod.fst := by
  induction l with
  | nil => rfl
  | cons r rest ih =>
    show (match mergeRuns rest with
      | [] => [r]
      | s :: tail => if r.1 = s.1 then (r.1, r.2 + s.2) :: tail else r :: s :: tail).head?.map
        Prod.fst = _
    cases hm : mergeRuns rest with
    | nil => rfl
    | cons s tail => by_cases hrs : r.1 = s.1 <;> simp [hrs]

theorem chain'_fst_mergeRuns (S : ℕ → ℕ → Prop) (l : List Run)
    (h : List.Chain' (fun a b : Run => a.1 = b.1 ∨ S a.1 b.1) l) :
    List.Chain' (fun a b : Run => S a.1 b.1) (mergeRuns l) := by
  induction l with
  | nil => exact List.chain'_nil
  | cons r rest ih =>
    have hrest : List.Chain' (fun a b : Run => a.1 = b.1 ∨ S a.1 b.1) rest :=
      (List.chain'_cons'.mp h).2
    have ihr := ih hrest
    show List.Chain' _ (match mergeRuns rest with
      | [] => [r]
      | s :: tail => if r.1 = s.1 then (r.1, r.2 + s.2) :: tail else r :: s :: tail)
    cases hm : mergeRuns rest with
    | nil => exact List.chain'_singleton r
    | cons s tail =>
      rw [hm] at ihr
      have hhead : rest.head?.map Prod.fst = some s.1 := by
        rw [← mergeRuns_head_fst, hm]; rfl
      have hrel : r.1 = s.1 ∨ S r.1 s.1 := by
        rcases hrest' : rest with _ | ⟨t, rest'⟩
        · rw [hrest'] at hhead; simp at hhead
        · rw [hrest'] at hhead
          simp only [List.head?_cons, Option.map_some'] at hhead
          have hts : t.1 = s.1 := Option.some.inj hhead
          have := (List.chain'_cons'.mp h).1 t (by rw [hrest']; rfl)
          rw [hts] at this
          exact this
      by_cases hrs : r.1 = s.1
      · simp only [hrs, if_pos rfl]
        cases tail with
        | nil => exact List.chain'_singleton _
        | cons u tail' =>
          have hsu : S s.1 u.1 := (List.chain'_cons.mp ihr).1
          exact List.chain'_cons.mpr ⟨by simpa [hrs] using hsu, (List.chain'_cons.mp ihr).2⟩
      · simp only [if_neg hrs]
        exact List.chain'_cons.mpr ⟨hrel.resolve_left hrs, ihr⟩

theorem noAdjDup_mergeRuns (l : List Run) : noAdjDup (mergeRuns l) := by
  induction l with
  | nil => exact List.chain'_nil
  | cons r rest ih =>
    show List.Chain' _ (match mergeRuns rest with
      | [] => [r]
      | s :: tail => if r.1 = s.1 then (r.1, r.2 + s.2) :: tail else r :: s :: tail)
    cases hm : mergeRuns rest with
    | nil => exact List.chain'_singleton r
    | cons s tail =>
      rw [hm] at ih
      by_cases hrs : r.1 = s.1
      · simp only [hrs, if_pos rfl]
        cases tail with
        | nil => exact List.chain'_singleton _
        | cons u tail' =>
          have hsu : s.1 ≠ u.1 := (List.chain'_cons.mp ih).1
          exact List.chain'_cons.mpr ⟨by simpa [hrs] using hsu, (List.chain'_cons.mp ih).2⟩
      · simp only [if_neg hrs]
        exact List.chain'_cons.mpr ⟨hrs, ih⟩

theorem mergeRuns_eq_self (l : List Run) (h : noAdjDup l) : mergeRuns l = l := by
  induction l with
  | nil => rfl
  | cons r rest ih =>
    have hrest : noAdjDup rest := (List.chain'_cons'.mp h).2
    have ihr := ih hrest
    show (match mergeRuns rest with
      | [] => [r]
      | s :: tail => if r.1 = s.1 then (r.1, r.2 + s.2) :: tail else r :: s :: tail) = _
    cases hm : rest with
    | nil => rw [← hm, ihr, hm]
    | cons s tail =>
      rw [← hm, ihr, hm]
      have hrs : r.1 ≠ s.1 := by
        have := (List.chain'_cons'.mp h).1 s (by rw [hm]; rfl)
        exact fun he => this he
      simp [hrs]

theorem allPos_mergeRuns (l : List Run) (h : allPos l) : allPos (mergeRuns l) := by
  induction l with
  | nil => exact h
  | cons r rest ih =>
    have hr : 0 < r.2 := h r (by simp)
    have hrest : allPos rest := fun x hx => h x (by simp [hx])
    have ihr := ih hrest
    show allPos (match mergeRuns rest with
      | [] => [r]
      | s :: tail => if r.1 = s.1 then (r.1, r.2 + s.2) :: tail else r :: s :: tail)
    cases hm : mergeRuns rest with
    | nil => intro x hx; simp at hx; subst hx; exact hr
    | cons s tail =>
      rw [hm] at ihr
      by_cases hrs : r.1 = s.1
      · simp only [hrs, if_pos rfl]
        intro x hx
        rcases List.mem_cons.mp hx with rfl | hx'
        · exact Nat.lt_of_lt_of_le hr (Nat.le_add_right _ _)
        · exact ihr x (by simp [hx'])
      · simp only [if_neg hrs]
        intro x hx
        rcases List.mem_cons.mp hx with rfl | hx'
        · exact hr
        · exact ihr x hx'

theorem filter_pos_eq_self (l : List Run) (h : allPos l) :
    l.filter (fun r => 0 < r.2) = l :=
  List.filter_eq_self.mpr (fun r hr => decide_eq_true (h r hr))

theorem noAdjDup_mkRuns (l : List Run) : noAdjDup (mkRuns l) := noAdjDup_mergeRuns _

theorem allPos_mkRuns (l : List Run) : allPos (mkRuns l) := by
  refine allPos_mergeRuns _ ?_
  intro r hr
  exact of_decide_eq_true (List.mem_filter.mp hr).2

theorem mkRuns_of_normalized (l : List Run) (hp : allPos l) (hd : noAdjDup l) :
    mkRuns l = l := by
  unfold mkRuns
  rw [filter_pos_eq_self l hp, mergeRuns_eq_self l hd]

theorem mkRuns_idem (l : List Run) : mkRuns (mkRuns l) = mkRuns l :=
  mkRuns_of_normalized _ (allPos_mkRuns l) (noAdjDup_mkRuns l)

theorem expand_cons (r : Run) (rest : List Run) :
    expand (r :: rest) = List.replicate r.2 r.1 ++ expand rest := rfl

theorem expand_mergeRuns (l : List Run) : expand (mergeRuns l) = expand l := by
  induction l with
  | nil => rfl
  | cons r rest ih =>
    show expand (match mergeRuns rest with
      | [] => [r]
      | s :: tail => if r.1 = s.1 then (r.1, r.2 + s.2) :: tail else r :: s :: tail) = _
    cases hm : mergeRuns rest with
    | nil =>
      have hnil : expand rest = [] := by rw [← ih, hm]; rfl
      rw [expand_cons, expand_cons, hnil]
      rfl
    | cons s tail =>
      rw [hm] at ih
      show expand (if r.1 = s.1 then (r.1, r.2 + s.2) :: tail else r :: s :: tail) =
        expand (r :: rest)
      by_cases hrs : r.1 = s.1
      · rw [if_pos hrs]
        have h1 : expand ((r.1, r.2 + s.2) :: tail) =
            List.replicate (r.2 + s.2) r.1 ++ expand tail := rfl
        rw [h1, expand_cons r rest, ← ih, expand_cons s tail, hrs, List.replicate_add,
          List.append_assoc]
      · rw [if_neg hrs, expand_cons r (s :: tail), expand_cons r rest, ← ih,
          expand_cons s tail]

theorem expand_filter_pos (l : List Run) :
    expand (l.filter (fun r => 0 < r.2)) = expand l := by
  induction l with
  | nil => rfl
  | cons r rest ih =>
    rw [List.filter_cons]
    by_cases hr : 0 < r.2
    · rw [if_pos (decide_eq_true hr), expand_cons, expand_cons, ih]
    · rw [if_neg (fun hc => hr (of_decide_eq_true hc)), expand_cons r rest,
        Nat.eq_zero_of_not_pos hr, ih]
      rfl

theorem expand_mkRuns (l : List Run) : expand (mkRuns l) = expand l := by
  unfold mkRuns
  rw [expand_mergeRuns, expand_filter_pos]

theorem expand_singletons (w : List ℕ) :
    expand (w.map (fun e => (e, 1))) = w := by
  induction w with
  | nil => rfl
  | cons x t ih =>
    show expand ((x, 1) :: t.map (fun e => (e, 1))) = x :: t
    rw [expand_cons, ih]
    rfl

theorem downScan_zero (I : Rel) (el : List Run) (x : ℕ) : downScan I el x 0 = 0 := rfl

theorem downScan_succ_some (I : Rel) (el : List Run) (x : ℕ) (j : ℕ) (p : Run)
    (hg : el.get? j = some p) :
    downScan I el x (j + 1) = if p.1 > x ∧ (x, p.1) ∈ I then downScan I el x j else j + 1 := by
  show (match el.get? j with
    | some p => if p.1 > x ∧ (x, p.1) ∈ I then downScan I el x j else j + 1
    | none => j + 1) = _
  rw [hg]

theorem downScan_succ_none (I : Rel) (el : List Run) (x : ℕ) (j : ℕ)
    (hg : el.get? j = none) : downScan I el x (j + 1) = j + 1 := by
  show (match el.get? j with
    | some p => if p.1 > x ∧ (x, p.1) ∈ I then downScan I el x j else j + 1
    | none => j + 1) = _
  rw [hg]

theorem sortStep_some (I : Rel) (el : List Run) (i : ℕ) (r : Run) (hg : el.get? i = some r) :
    sortStep I el i = if downScan I el r.1 i = i then el
      else (el.eraseIdx i).insertIdx (downScan I el r.1 i) r := by
  show (match el.get? i with
    | none => el
    | some r =>
      let j := downScan I el r.1 i
      if j = i then el else (el.eraseIdx i).insertIdx j r) = _
  rw [hg]

theorem downScan_le (I : Rel) (el : List Run) (x : ℕ) : ∀ j, downScan I el x j ≤ j := by
  intro j
  induction j with
  | zero => exact Nat.le_refl 0
  | succ j ih =>
    cases hg : el.get? j with
    | none => rw [downScan_succ_none I el x j hg]
    | some p =>
      rw [downScan_succ_some I el x j p hg]
      by_cases hc : p.1 > x ∧ (x, p.1) ∈ I
      · rw [if_pos hc]; exact Nat.le_succ_of_le ih
      · rw [if_neg hc]

theorem downScan_between (I : Rel) (el : List Run) (x : ℕ) :
    ∀ j m, downScan I el x j ≤ m → m < j →
      ∃ p, el.get? m = some p ∧ p.1 > x ∧ (x, p.1) ∈ I := by
  intro j
  induction j with
  | zero => intro m _ hm; exact absurd hm (Nat.not_lt_zero m)
  | succ j ih =>
    intro m hle hm
    cases hg : el.get? j with
    | none =>
      rw [downScan_succ_none I el x j hg] at hle
      exact absurd hm (Nat.not_lt.mpr hle)
    | some p =>
      rw [downScan_succ_some I el x j p hg] at hle
      by_cases hc : p.1 > x ∧ (x, p.1) ∈ I
      · rw [if_pos hc] at hle
        rcases Nat.lt_succ_iff_lt_or_eq.mp hm with hm2 | rfl
        · exact ih m hle hm2
        · exact ⟨p, hg, hc⟩
      · rw [if_neg hc] at hle
        exact absurd hm (Nat.not_lt.mpr hle)

theorem downScan_pred (I : Rel) (el : List Run) (x : ℕ) :
    ∀ j, 0 < downScan I el x j →
      ∀ p, el.get? (downScan I el x j - 1) = some p → ¬(p.1 > x ∧ (x, p.1) ∈ I) := by
  intro j
  induction j with
  | zero => intro hpos; rw [downScan_zero] at hpos; exact absurd hpos (Nat.lt_irrefl 0)
  | succ j ih =>
    intro hpos p hp
    cases hg : el.get? j with
    | none =>
      rw [downScan_succ_none I el x j hg, Nat.add_sub_cancel, hg] at hp
      exact absurd hp (by simp)
    | some p0 =>
      rw [downScan_succ_some I el x j p0 hg] at hpos hp
      by_cases hc : p0.1 > x ∧ (x, p0.1) ∈ I
      · rw [if_pos hc] at hpos hp
        exact ih hpos p hp
      · rw [if_neg hc, Nat.add_sub_cancel, hg] at hp
        have hpe : p0 = p := Option.some.inj hp
        subst hpe
        exact hc

theorem insertIdx_append_left {α : Type} (x : α) :
    ∀ (j : ℕ) (s t : List α), j ≤ s.length →
      (s ++ t).insertIdx j x = s.insertIdx j x ++ t := by
  intro j
  induction j with
  | zero => intro s t _; rfl
  | succ j ih =>
    intro s t hj
    cases s with
    | nil => simp at hj
    | cons a s2 =>
      show ((a :: (s2 ++ t)).insertIdx (j + 1) x) = _
      rw [List.insertIdx_succ_cons, List.insertIdx_succ_cons,
        ih s2 t (Nat.le_of_succ_le_succ hj)]
      rfl

theorem insertIdx_eq_take_drop {α : Type} (x : α) :
    ∀ (j : ℕ) (s : List α), j ≤ s.length →
      s.insertIdx j x = s.take j ++ x :: s.drop j := by
  intro j
  induction j with
  | zero => intro s _; rfl
  | succ j ih =>
    intro s hj
    cases s with
    | nil => simp at hj
    | cons a s2 =>
      rw [List.insertIdx_succ_cons, ih s2 (Nat.le_of_succ_le_succ hj)]
      rfl

theorem sortStep_split (I : Rel) (s t : List Run) (x : Run) (hnv : noViol I s) :
    ∃ s2, sortStep I (s ++ x :: t) s.length = s2 ++ t ∧ s2.length = s.length + 1 ∧
      noViol I s2 := by
  have hget : (s ++ x :: t).get? s.length = some x := by
    rw [List.get?_eq_getElem?, List.getElem?_append_right (Nat.le_refl s.length)]
    simp
  have hsget : ∀ m, m < s.length → (s ++ x :: t).get? m = s.get? m := by
    intro m hm
    rw [List.get?_eq_getElem?, List.get?_eq_getElem?, List.getElem?_append_left hm]
  have hjle : downScan I (s ++ x :: t) x.1 s.length ≤ s.length :=
    downScan_le I (s ++ x :: t) x.1 s.length
  by_cases hji : downScan I (s ++ x :: t) x.1 s.length = s.length
  · refine ⟨s ++ [x], ?_, by simp, ?_⟩
    · rw [sortStep_some I (s ++ x :: t) s.length x hget, if_pos hji, List.append_assoc]
      rfl
    · rw [noViol, List.chain'_append]
      refine ⟨hnv, List.chain'_singleton x, ?_⟩
      intro p hp y hy
      simp only [List.head?_cons, Option.mem_def, Option.some.injEq] at hy
      subst hy
      have hslen : 0 < s.length := by
        cases s with
        | nil => simp at hp
        | cons a s2 => exact Nat.succ_pos _
      have hpred := downScan_pred I (s ++ x :: t) x.1 s.length (by rw [hji]; exact hslen) p
      rw [hji] at hpred
      apply hpred
      rw [hsget (s.length - 1) (Nat.sub_lt hslen Nat.one_pos), List.get?_eq_getElem?]
      rw [Option.mem_def] at hp
      rw [← List.getLast?_eq_getElem?]
      exact hp
  · have hjlt : downScan I (s ++ x :: t) x.1 s.length < s.length :=
      Nat.lt_of_le_of_ne hjle hji
    refine ⟨s.insertIdx (downScan I (s ++ x :: t) x.1 s.length) x, ?_, ?_, ?_⟩
    · rw [sortStep_some I (s ++ x :: t) s.length x hget, if_neg hji]
      have herase : (s ++ x :: t).eraseIdx s.length = s ++ t := by
        rw [List.eraseIdx_eq_take_drop_succ, List.take_left]
        congr 1
        rw [List.drop_append]
        rfl
      rw [herase, insertIdx_append_left x _ s t (Nat.le_of_lt hjlt)]
    · rw [List.length_insertIdx _ _ (Nat.le_of_lt hjlt)]
    · rw [insertIdx_eq_take_drop x _ s (Nat.le_of_lt hjlt)]
      have hnv2 : List.Chain' (fun a b : Run => ¬(a.1 > b.1 ∧ (b.1, a.1) ∈ I))
          (s.take (downScan I (s ++ x :: t) x.1 s.length) ++
            s.drop (downScan I (s ++ x :: t) x.1 s.length)) := by
        rw [List.take_append_drop]
        exact hnv
      obtain ⟨h1, h2, h3⟩ := List.chain'_append.mp hnv2
      rw [noViol, List.chain'_append]
      refine ⟨h1, ?_, ?_⟩
      · rw [List.chain'_cons']
        refine ⟨?_, h2⟩
        intro y hy
        obtain ⟨p, hpg, hgt, hin⟩ := downScan_between I (s ++ x :: t) x.1 s.length
          (downScan I (s ++ x :: t) x.1 s.length) (Nat.le_refl _) hjlt
        have hyp : p = y := by
          rw [hsget _ hjlt, List.get?_eq_getElem?] at hpg
          rw [List.drop_eq_getElem_cons hjlt] at hy
          simp only [List.head?_cons, Option.mem_def, Option.some.injEq] at hy
          subst hy
          have := List.getElem?_eq_some_iff.mp hpg
          obtain ⟨h4, h5⟩ := this
          exact h5.symm
        subst hyp
        rintro ⟨hgt2, hmem⟩
        exact absurd hgt2 (Nat.lt_asymm hgt)
      · intro p hp y hy
        simp only [List.head?_cons, Option.mem_def, Option.some.injEq] at hy
        subst hy
        have hj1 : 0 < downScan I (s ++ x :: t) x.1 s.length := by
          rcases Nat.eq_zero_or_pos (downScan I (s ++ x :: t) x.1 s.length) with hz | hpos
          · rw [hz] at hp; simp at hp
          · exact hpos
        apply downScan_pred I (s ++ x :: t) x.1 s.length hj1 p
        rw [hsget _ (lt_trans (Nat.sub_lt hj1 Nat.one_pos) hjlt), List.get?_eq_getElem?]
        rw [Option.mem_def, List.getLast?_eq_getElem?] at hp
        rw [List.length_take] at hp
        have hmin : downScan I (s ++ x :: t) x.1 s.length ⊓ s.length =
            downScan I (s ++ x :: t) x.1 s.length := Nat.min_eq_left (Nat.le_of_lt hjlt)
        rw [hmin, List.getElem?_take] at hp
        rw [if_pos (Nat.sub_lt hj1 Nat.one_pos)] at hp
        exact hp

theorem sortStep_none (I : Rel) (el : List Run) (i : ℕ) (hg : el.get? i = none) :
    sortStep I el i = el := by
  show (match el.get? i with
    | none => el
    | some r =>
      let j := downScan I el r.1 i
      if j = i then el else (el.eraseIdx i).insertIdx j r) = el
  rw [hg]

theorem chain'_get?_adj {α : Type} {R : α → α → Prop} {l : List α} (h : List.Chain' R l)
    (i : ℕ) {a b : α} (ha : l.get? i = some a) (hb : l.get? (i + 1) = some b) : R a b := by
  obtain ⟨h1, rfl⟩ := List.get?_eq_some.mp ha
  obtain ⟨h2, rfl⟩ := List.get?_eq_some.mp hb
  exact List.chain'_iff_get.mp h i (by omega)

theorem sortStep_fix (I : Rel) (el : List Run) (hnv : noViol I el) (k : ℕ) :
    sortStep I el k = el := by
  cases hg : el.get? k with
  | none => exact sortStep_none I el k hg
  | some r =>
    rw [sortStep_some I el k r hg]
    have hds : downScan I el r.1 k = k := by
      cases k with
      | zero => rfl
      | succ m =>
        have hk1 : m + 1 < el.length := (List.get?_eq_some.mp hg).1
        have hmlt : m < el.length := Nat.lt_of_succ_lt hk1
        have hgm : el.get? m = some (el.get ⟨m, hmlt⟩) := List.get?_eq_some.mpr ⟨hmlt, rfl⟩
        have hcond := chain'_get?_adj hnv m hgm hg
        rw [downScan_succ_some I el r.1 m (el.get ⟨m, hmlt⟩) hgm, if_neg hcond]
    rw [if_pos hds]

theorem sortFold_fix (I : Rel) (el : List Run) (hnv : noViol I el) :
    ∀ k, (List.range k).foldl (sortStep I) el = el := by
  intro k
  induction k with
  | zero => rfl
  | succ k ih => rw [List.range_succ, List.foldl_concat, ih, sortStep_fix I el hnv k]

theorem sortStep_mem (I : Rel) (el : List Run) (i : ℕ) :
    ∀ r ∈ sortStep I el i, r ∈ el := by
  intro r hr
  cases hg : el.get? i with
  | none => rw [sortStep_none I el i hg] at hr; exact hr
  | some x =>
    rw [sortStep_some I el i x hg] at hr
    by_cases hji : downScan I el x.1 i = i
    · rw [if_pos hji] at hr; exact hr
    · rw [if_neg hji] at hr
      have hilt : i < el.length := (List.get?_eq_some.mp hg).1
      have hjle : downScan I el x.1 i ≤ (el.eraseIdx i).length := by
        have hle := downScan_le I el x.1 i
        rw [List.length_eraseIdx, if_pos hilt]
        have : downScan I el x.1 i ≠ i := hji
        omega
      rcases (List.mem_insertIdx hjle).mp hr with rfl | hr2
      · exact List.get?_mem hg
      · exact (List.eraseIdx_sublist el i).mem hr2

theorem sortFold_mem (I : Rel) :
    ∀ (idxs : List ℕ) (el : List Run), ∀ r ∈ idxs.foldl (sortStep I) el, r ∈ el := by
  intro idxs
  induction idxs with
  | nil => intro el r hr; exact hr
  | cons i idxs ih =>
    intro el r hr
    exact sortStep_mem I el i r (ih (sortStep I el i) r hr)

theorem sortFold_noViol (I : Rel) (el : List Run) :
    ∀ k, k ≤ el.length → ∃ s, (List.range k).foldl (sortStep I) el = s ++ el.drop k ∧
      s.length = k ∧ noViol I s := by
  intro k
  induction k with
  | zero => exact fun _ => ⟨[], rfl, rfl, List.chain'_nil⟩
  | succ k ih =>
    intro hk
    obtain ⟨s, hfold, hlen, hnv⟩ := ih (Nat.le_of_succ_le hk)
    have hklt : k < el.length := hk
    obtain ⟨s2, hstep, hlen2, hnv2⟩ :=
      sortStep_split I s (el.drop (k + 1)) (el.get ⟨k, hklt⟩) hnv
    rw [hlen] at hstep
    refine ⟨s2, ?_, by rw [hlen2, hlen], hnv2⟩
    rw [List.range_succ, List.foldl_concat, hfold, List.drop_eq_getElem_cons hklt]
    rw [show el[k] = el.get ⟨k, hklt⟩ from rfl]
    exact hstep

theorem noViol_mergeRuns (I : Rel) (l : List Run) (h : noViol I l) :
    noViol I (mergeRuns l) :=
  chain'_fst_mergeRuns (fun g1 g2 => ¬(g1 > g2 ∧ (g2, g1) ∈ I)) l
    (h.imp (fun a b hr => Or.inr hr))

theorem sortLexNF_idem (I : Rel) (el : List Run) (hp : allPos el) :
    sortLexNF I (sortLexNF I el) = sortLexNF I el := by
  obtain ⟨s, hfold, hlen, hnv⟩ := sortFold_noViol I el el.length (Nat.le_refl _)
  rw [List.drop_length, List.append_nil] at hfold
  have hmem : ∀ r ∈ s, r ∈ el := by
    intro r hr
    exact sortFold_mem I (List.range el.length) el r (by rw [hfold]; exact hr)
  have hposF : allPos s := fun r hr => hp r (hmem r hr)
  have hy : sortLexNF I el = mergeRuns s := by
    rw [sortLexNF, hfold, mkRuns, filter_pos_eq_self s hposF]
  have hposY : allPos (mergeRuns s) := allPos_mergeRuns s hposF
  have hnvY : noViol I (mergeRuns s) := noViol_mergeRuns I s hnv
  have hdupY : noAdjDup (mergeRuns s) := noAdjDup_mergeRuns s
  rw [hy, sortLexNF, sortFold_fix I (mergeRuns s) hnvY, mkRuns,
    filter_pos_eq_self (mergeRuns s) hposY, mergeRuns_eq_self (mergeRuns s) hdupY]

theorem swapStep_perm {I : Rel} {w w2 : List ℕ} (h : SwapStep I w w2) : w.Perm w2 := by
  cases h with
  | swap u v x y hxy => exact List.Perm.append_left u (List.Perm.swap y x v)

theorem congr_perm {I : Rel} {w w2 : List ℕ} (h : Congr I w w2) : w.Perm w2 := by
  induction h with
  | rel a b hab => exact swapStep_perm hab
  | refl a => exact List.Perm.refl a
  | symm a b _ ih => exact ih.symm
  | trans a b c _ _ ih1 ih2 => exact ih1.trans ih2

theorem congr_length {I : Rel} {w w2 : List ℕ} (h : Congr I w w2) : w.length = w2.length :=
  (congr_perm h).length_eq

theorem congr_append_left (I : Rel) (p : List ℕ) {w w2 : List ℕ} (h : Congr I w w2) :
    Congr I (p ++ w) (p ++ w2) := by
  induction h with
  | rel a b hab =>
    cases hab with
    | swap u v x y hxy =>
      refine Relation.EqvGen.rel _ _ ?_
      rw [← List.append_assoc, ← List.append_assoc]
      exact SwapStep.swap (p ++ u) v x y hxy
  | refl a => exact Relation.EqvGen.refl _
  | symm a b _ ih => exact Relation.EqvGen.symm _ _ ih
  | trans a b c _ _ ih1 ih2 => exact Relation.EqvGen.trans _ _ _ ih1 ih2

theorem congr_cons (I : Rel) (a : ℕ) {w w2 : List ℕ} (h : Congr I w w2) :
    Congr I (a :: w) (a :: w2) :=
  congr_append_left I [a] h

theorem movable_mem {I : Rel} {g : ℕ} {w : List ℕ} (h : movable I g w) : g ∈ w :=
  List.mem_of_mem_filter
    (List.mem_of_mem_head? (show g ∈ (w.filter (relKeep I g)).head? from by rw [h]; rfl))

theorem movable_cons_self (I : Rel) (g : ℕ) (t : List ℕ) (hirr : IrrRel I) :
    movable I g (g :: t) := by
  unfold movable
  rw [List.filter_cons, if_pos (show relKeep I g g = true from decide_eq_true (hirr g))]
  rfl

theorem movable_decomp {I : Rel} {g : ℕ} {w : List ℕ} (h : movable I g w) :
    ∃ u v, w = u ++ g :: v ∧ ∀ x ∈ u, (x, g) ∈ I := by
  induction w with
  | nil => unfold movable at h; simp at h
  | cons a t ih =>
    unfold movable at h
    rw [List.filter_cons] at h
    by_cases hk : relKeep I g a = true
    · rw [if_pos hk] at h
      simp only [List.head?_cons, Option.some.injEq] at h
      subst h
      exact ⟨[], t, rfl, by simp⟩
    · rw [if_neg hk] at h
      obtain ⟨u, v, rfl, hu⟩ := ih h
      refine ⟨a :: u, v, rfl, ?_⟩
      intro x hx
      rcases List.mem_cons.mp hx with rfl | hx2
      · have : ¬((x, g) ∉ I) := fun hn => hk (decide_eq_true hn)
        exact not_not.mp this
      · exact hu x hx2

theorem movable_decomp_erase {I : Rel} {g : ℕ} {w : List ℕ} (hirr : IrrRel I)
    (h : movable I g w) :
    ∃ u v, w = u ++ g :: v ∧ (∀ x ∈ u, (x, g) ∈ I) ∧ w.erase g = u ++ v := by
  obtain ⟨u, v, rfl, hu⟩ := movable_decomp h
  refine ⟨u, v, rfl, hu, ?_⟩
  have hgu : g ∉ u := by
    intro hg
    exact hirr g (hu g hg)
  rw [List.erase_append_right _ hgu, List.erase_cons_head]

theorem congr_front (I : Rel) (g : ℕ) :
    ∀ u v : List ℕ, (∀ x ∈ u, (x, g) ∈ I) → Congr I (u ++ g :: v) (g :: (u ++ v)) := by
  intro u
  induction u with
  | nil => intro v _; exact Relation.EqvGen.refl _
  | cons a u2 ih =>
    intro v hu
    have h1 : Congr I (u2 ++ g :: v) (g :: (u2 ++ v)) :=
      ih v (fun x hx => hu x (by simp [hx]))
    have h2 : Congr I (a :: (u2 ++ g :: v)) (a :: g :: (u2 ++ v)) := congr_cons I a h1
    have h3 : SwapStep I (a :: g :: (u2 ++ v)) (g :: a :: (u2 ++ v)) :=
      SwapStep.swap ([] : List ℕ) (u2 ++ v) a g (hu a (by simp))
    exact Relation.EqvGen.trans _ _ _ h2 (Relation.EqvGen.rel _ _ h3)

theorem movable_swapStep (I : Rel) (hsym : SymRel I) {w w2 : List ℕ}
    (hs : SwapStep I w w2) (g : ℕ) : movable I g w ↔ movable I g w2 := by
  cases hs with
  | swap u v x y hxy =>
    unfold movable
    cases hxb : relKeep I g x <;> cases hyb : relKeep I g y
    · simp only [List.filter_append, List.filter_cons, hxb, hyb]
      simp
    · simp only [List.filter_append, List.filter_cons, hxb, hyb]
      simp
    · simp only [List.filter_append, List.filter_cons, hxb, hyb]
      simp
    · have hxg : x ≠ g := by
        intro he
        subst he
        have hyI : (y, x) ∈ I := hsym x y hxy
        have : (y, x) ∉ I := of_decide_eq_true hyb
        exact this hyI
      have hyg : y ≠ g := by
        intro he
        subst he
        have : (x, y) ∉ I := of_decide_eq_true hxb
        exact this hxy
      simp only [List.filter_append, List.filter_cons, hxb, hyb, if_pos]
      cases hfu : u.filter (relKeep I g) with
      | cons a t => simp
      | nil => simp [hxg, hyg]

theorem movable_congr (I : Rel) (hsym : SymRel I) {w w2 : List ℕ} (h : Congr I w w2)
    (g : ℕ) : movable I g w ↔ movable I g w2 := by
  induction h with
  | rel a b hab => exact movable_swapStep I hsym hab g
  | refl a => exact Iff.rfl
  | symm a b _ ih => exact ih.symm
  | trans a b c _ _ ih1 ih2 => exact ih1.trans ih2

theorem erase_congr_swapStep (I : Rel) (hirr : IrrRel I) {w w2 : List ℕ}
    (hs : SwapStep I w w2) (g : ℕ) : Congr I (w.erase g) (w2.erase g) := by
  cases hs with
  | swap u v x y hxy =>
    by_cases hgu : g ∈ u
    · rw [List.erase_append_left _ hgu, List.erase_append_left _ hgu]
      exact Relation.EqvGen.rel _ _ (SwapStep.swap (u.erase g) v x y hxy)
    · rw [List.erase_append_right _ hgu, List.erase_append_right _ hgu]
      by_cases hxg : x = g
      · subst hxg
        have hyx : ¬(y == x) = true := by
          simp only [beq_iff_eq]
          intro he
          exact hirr x (he ▸ hxy)
        rw [List.erase_cons_head, List.erase_cons_tail hyx, List.erase_cons_head]
        exact Relation.EqvGen.refl _
      · by_cases hyg : y = g
        · subst hyg
          have hxy2 : ¬(x == y) = true := by
            simp only [beq_iff_eq]
            intro he
            exact hirr y (he ▸ hxy)
          rw [List.erase_cons_tail hxy2, List.erase_cons_head, List.erase_cons_head]
          exact Relation.EqvGen.refl _
        · have hxb : ¬(x == g) = true := by simp [hxg]
          have hyb : ¬(y == g) = true := by simp [hyg]
          rw [List.erase_cons_tail hxb, List.erase_cons_tail hyb,
            List.erase_cons_tail hyb, List.erase_cons_tail hxb]
          exact Relation.EqvGen.rel _ _ (SwapStep.swap u (v.erase g) x y hxy)

theorem erase_congr (I : Rel) (hirr : IrrRel I) {w w2 : List ℕ} (h : Congr I w w2)
    (g : ℕ) : Congr I (w.erase g) (w2.erase g) := by
  induction h with
  | rel a b hab => exact erase_congr_swapStep I hirr hab g
  | refl a => exact Relation.EqvGen.refl _
  | symm a b _ ih => exact Relation.EqvGen.symm _ _ ih
  | trans a b c _ _ ih1 ih2 => exact Relation.EqvGen.trans _ _ _ ih1 ih2

theorem nfAux_eq_none (I : Rel) (gs w : List ℕ)
    (h : gs.find? (fun g => movableb I g w) = none) : nfAux I gs w = [] := by
  rw [nfAux, h]

theorem nfAux_eq_some (I : Rel) (gs w : List ℕ) (g : ℕ)
    (h : gs.find? (fun g => movableb I g w) = some g) :
    nfAux I gs w = g :: nfAux I gs (w.erase g) := by
  rw [nfAux, h]

theorem movableb_iff (I : Rel) (g : ℕ) (w : List ℕ) :
    movableb I g w = true ↔ movable I g w := by
  unfold movableb movable
  exact beq_iff_eq

theorem movableb_eq_of_iff (I : Rel) (g : ℕ) {w w2 : List ℕ}
    (h : movable I g w ↔ movable I g w2) : movableb I g w = movableb I g w2 := by
  by_cases hw1 : movable I g w
  · rw [(movableb_iff I g w).mpr hw1, (movableb_iff I g w2).mpr (h.mp hw1)]
  · rw [Bool.eq_false_iff.mpr (fun hb => hw1 ((movableb_iff I g w).mp hb)),
      Bool.eq_false_iff.mpr (fun hb => hw1 (h.mpr ((movableb_iff I g w2).mp hb)))]

theorem find?_congr_pt {α : Type} (l : List α) (p q : α → Bool)
    (h : ∀ a ∈ l, p a = q a) : l.find? p = l.find? q := by
  induction l with
  | nil => rfl
  | cons a t ih =>
    show (match p a with | true => some a | false => t.find? p) =
      (match q a with | true => some a | false => t.find? q)
    rw [h a (List.mem_cons_self a t)]
    cases hq : q a
    · exact ih (fun x hx => h x (List.mem_cons_of_mem a hx))
    · rfl

theorem nfAux_nil (I : Rel) (gs : List ℕ) : nfAux I gs [] = [] := by
  apply nfAux_eq_none
  rw [List.find?_eq_none]
  intro g _
  unfold movableb
  simp

theorem nfAux_find_some (I : Rel) (gs : List ℕ) (hirr : IrrRel I) (a : ℕ) (t : List ℕ)
    (ha : a ∈ gs) : ∃ g, gs.find? (fun g => movableb I g (a :: t)) = some g := by
  cases hfind : gs.find? (fun g => movableb I g (a :: t)) with
  | some g => exact ⟨g, rfl⟩
  | none =>
    have := List.find?_eq_none.mp hfind a ha
    exact absurd ((movableb_iff I a (a :: t)).mpr (movable_cons_self I a t hirr)) this

theorem find?_movable_spec (I : Rel) (gs w : List ℕ) (g : ℕ)
    (h : gs.find? (fun g => movableb I g w) = some g) : movable I g w :=
  (movableb_iff I g w).mp (@List.find?_some ℕ (fun x => movableb I x w) g gs h)

theorem nfAux_perm (I : Rel) (gs : List ℕ) (hirr : IrrRel I) :
    ∀ n (w : List ℕ), w.length ≤ n → (∀ x ∈ w, x ∈ gs) → (nfAux I gs w).Perm w := by
  intro n
  induction n with
  | zero =>
    intro w hw _
    have : w = [] := List.length_eq_zero.mp (Nat.le_zero.mp hw)
    subst this
    rw [nfAux_nil]
  | succ n ih =>
    intro w hw hcomp
    cases w with
    | nil => rw [nfAux_nil]
    | cons a t =>
      obtain ⟨g, hfind⟩ := nfAux_find_some I gs hirr a t (hcomp a (List.mem_cons_self a t))
      have hmov := find?_movable_spec I gs (a :: t) g hfind
      have hgmem : g ∈ a :: t := movable_mem hmov
      rw [nfAux_eq_some I gs (a :: t) g hfind]
      have hlen : ((a :: t).erase g).length ≤ n := by
        rw [List.length_erase_of_mem hgmem]
        simpa using hw
      have hcomp2 : ∀ x ∈ (a :: t).erase g, x ∈ gs := fun x hx =>
        hcomp x ((List.erase_sublist g (a :: t)).mem hx)
      have hp := ih ((a :: t).erase g) hlen hcomp2
      exact (hp.cons g).trans (List.perm_cons_erase hgmem).symm

theorem nfAux_congr_self (I : Rel) (gs : List ℕ) (hirr : IrrRel I) :
    ∀ n (w : List ℕ), w.length ≤ n → (∀ x ∈ w, x ∈ gs) → Congr I w (nfAux I gs w) := by
  intro n
  induction n with
  | zero =>
    intro w hw _
    have : w = [] := List.length_eq_zero.mp (Nat.le_zero.mp hw)
    subst this
    rw [nfAux_nil]
    exact Relation.EqvGen.refl _
  | succ n ih =>
    intro w hw hcomp
    cases w with
    | nil =>
      rw [nfAux_nil]
      exact Relation.EqvGen.refl _
    | cons a t =>
      obtain ⟨g, hfind⟩ := nfAux_find_some I gs hirr a t (hcomp a (List.mem_cons_self a t))
      have hmov := find?_movable_spec I gs (a :: t) g hfind
      have hgmem : g ∈ a :: t := movable_mem hmov
      rw [nfAux_eq_some I gs (a :: t) g hfind]
      obtain ⟨u, v, hw2, hu, herase⟩ := movable_decomp_erase hirr hmov
      have h1 : Congr I (a :: t) (g :: ((a :: t).erase g)) := by
        rw [herase, hw2]
        exact congr_front I g u v hu
      have hlen : ((a :: t).erase g).length ≤ n := by
        rw [List.length_erase_of_mem hgmem]
        simpa using hw
      have hcomp2 : ∀ x ∈ (a :: t).erase g, x ∈ gs := fun x hx =>
        hcomp x ((List.erase_sublist g (a :: t)).mem hx)
      have h2 := ih ((a :: t).erase g) hlen hcomp2
      exact Relation.EqvGen.trans _ _ _ h1 (congr_cons I g h2)

theorem nfAux_congr (I : Rel) (gs : List ℕ) (hsym : SymRel I) (hirr : IrrRel I) :
    ∀ n (w w2 : List ℕ), w.length ≤ n → Congr I w w2 → (∀ x ∈ w, x ∈ gs) →
      nfAux I gs w = nfAux I gs w2 := by
  intro n
  induction n with
  | zero =>
    intro w w2 hw hc hcomp
    have hw0 : w = [] := List.length_eq_zero.mp (Nat.le_zero.mp hw)
    subst hw0
    have hw2 : w2 = [] := by
      have := congr_length hc
      exact List.length_eq_zero.mp this.symm
    subst hw2
    rfl
  | succ n ih =>
    intro w w2 hw hc hcomp
    have main : ∀ a b : List ℕ, Congr I a b → a.length ≤ n + 1 → (∀ x ∈ a, x ∈ gs) →
        nfAux I gs a = nfAux I gs b := by
      intro a b hab
      induction hab with
      | rel a b hr =>
        intro hla hca
        have hpt : ∀ g ∈ gs, movableb I g a = movableb I g b := fun g _ =>
          movableb_eq_of_iff I g (movable_swapStep I hsym hr g)
        have hfeq := find?_congr_pt gs (fun g => movableb I g a) (fun g => movableb I g b) hpt
        cases hfa : gs.find? (fun g => movableb I g a) with
        | none =>
          rw [nfAux_eq_none I gs a hfa, nfAux_eq_none I gs b (by rw [← hfeq]; exact hfa)]
        | some g =>
          have hfb : gs.find? (fun g => movableb I g b) = some g := by rw [← hfeq]; exact hfa
          rw [nfAux_eq_some I gs a g hfa, nfAux_eq_some I gs b g hfb]
          have hmov := find?_movable_spec I gs a g hfa
          have hgmem : g ∈ a := movable_mem hmov
          have hlen : (a.erase g).length ≤ n := by
            rw [List.length_erase_of_mem hgmem]
            have hpos : 0 < a.length := List.length_pos.mpr (by rintro rfl; simp at hgmem)
            omega
          have hcomp2 : ∀ x ∈ a.erase g, x ∈ gs := fun x hx =>
            hca x ((List.erase_sublist g a).mem hx)
          rw [ih (a.erase g) (b.erase g) hlen (erase_congr_swapStep I hirr hr g) hcomp2]
      | refl a => intro _ _; rfl
      | symm a b hab ihab =>
        intro hlb hcb
        have hperm : a.Perm b := congr_perm hab
        have hla : a.length ≤ n + 1 := by rw [hperm.length_eq]; exact hlb
        have hca : ∀ x ∈ a, x ∈ gs := fun x hx => hcb x (hperm.mem_iff.mp hx)
        exact (ihab hla hca).symm
      | trans a b c hab hbc ihab ihbc =>
        intro hla hca
        have hperm : a.Perm b := congr_perm hab
        have hlb : b.length ≤ n + 1 := by rw [← hperm.length_eq]; exact hla
        have hcb : ∀ x ∈ b, x ∈ gs := fun x hx => hca x (hperm.mem_iff.mpr hx)
        exact (ihab hla hca).trans (ihbc hlb hcb)
    exact main w w2 hc hw hcomp

theorem nfAux_idem (I : Rel) (gs : List ℕ) (hsym : SymRel I) (hirr : IrrRel I) :
    ∀ n (w : List ℕ), w.length ≤ n → (∀ x ∈ w, x ∈ gs) →
      nfAux I gs (nfAux I gs w) = nfAux I gs w := by
  intro n
  induction n with
  | zero =>
    intro w hw _
    have : w = [] := List.length_eq_zero.mp (Nat.le_zero.mp hw)
    subst this
    rw [nfAux_nil, nfAux_nil]
  | succ n ih =>
    intro w hw hcomp
    cases w with
    | nil => rw [nfAux_nil, nfAux_nil]
    | cons a t =>
      obtain ⟨g, hfind⟩ := nfAux_find_some I gs hirr a t (hcomp a (List.mem_cons_self a t))
      have hmov := find?_movable_spec I gs (a :: t) g hfind
      have hgmem : g ∈ a :: t := movable_mem hmov
      have hlen : ((a :: t).erase g).length ≤ n := by
        rw [List.length_erase_of_mem hgmem]
        simpa using hw
      have hcomp2 : ∀ x ∈ (a :: t).erase g, x ∈ gs := fun x hx =>
        hcomp x ((List.erase_sublist g (a :: t)).mem hx)
      rw [nfAux_eq_some I gs (a :: t) g hfind]
      have hcongr : Congr I (a :: t) (g :: nfAux I gs ((a :: t).erase g)) := by
        have h1 := nfAux_congr_self I gs hirr (n + 1) (a :: t) hw hcomp
        rw [nfAux_eq_some I gs (a :: t) g hfind] at h1
        exact h1
      have hpt : ∀ x ∈ gs,
          movableb I x (g :: nfAux I gs ((a :: t).erase g)) = movableb I x (a :: t) :=
        fun x _ => movableb_eq_of_iff I x
          (movable_congr I hsym (Relation.EqvGen.symm _ _ hcongr) x)
      have hfind2 : gs.find?
          (fun x => movableb I x (g :: nfAux I gs ((a :: t).erase g))) = some g := by
        rw [find?_congr_pt gs _ _ hpt]
        exact hfind
      rw [nfAux_eq_some I gs _ g hfind2, List.erase_cons_head]
      rw [ih ((a :: t).erase g) hlen hcomp2]

theorem stacksOf_nil (I : Rel) (gl : List ℕ) (k : ℕ) : stacksOf I gl [] k = [] := rfl

theorem stacksOf_cons (I : Rel) (gl : List ℕ) (x : ℕ) (t : List ℕ) (k : ℕ) :
    stacksOf I gl (x :: t) k = letterBlock I gl k x ++ stacksOf I gl t k := rfl

theorem stacksOf_append (I : Rel) (gl : List ℕ) (u v : List ℕ) (k : ℕ) :
    stacksOf I gl (u ++ v) k = stacksOf I gl u k ++ stacksOf I gl v k := by
  unfold stacksOf
  rw [List.map_append, List.flatten_append]

theorem upd_same (st : ℕ → List Bool) (g : ℕ) (v : List Bool) : upd st g v g = v := by
  rw [upd, if_pos rfl]

theorem upd_other (st : ℕ → List Bool) (g : ℕ) (v : List Bool) (k : ℕ) (h : k ≠ g) :
    upd st g v k = st k := by
  rw [upd, if_neg h]

theorem count_cons_ne {a k : ℕ} (h : a ≠ k) (l : List ℕ) :
    List.count k (a :: l) = List.count k l := by
  rw [List.count_cons, if_neg (by simpa using h), Nat.add_zero]

theorem count_cons_self_eq (k : ℕ) (l : List ℕ) :
    List.count k (k :: l) = List.count k l + 1 := by
  rw [List.count_cons, if_pos (by simp)]

theorem resolve_apply (I : Rel) (g : ℕ) :
    ∀ (gl : List ℕ) (st : ℕ → List Bool) (k : ℕ),
      resolve I gl g st k =
        if k ≠ g ∧ (g, k) ∉ I then List.drop (gl.count k) (st k) else st k := by
  intro gl
  induction gl with
  | nil =>
    intro st k
    show st k = _
    by_cases hc : k ≠ g ∧ (g, k) ∉ I
    · rw [if_pos hc, List.count_nil, List.drop_zero]
    · rw [if_neg hc]
  | cons a gl2 ih =>
    intro st k
    have hstep : resolve I (a :: gl2) g st k =
        resolve I gl2 g (if a ≠ g ∧ (g, a) ∉ I then upd st a (st a).tail else st) k := rfl
    rw [hstep, ih]
    by_cases hak : a = k
    · subst hak
      by_cases hc : a ≠ g ∧ (g, a) ∉ I
      · rw [if_pos hc, if_pos hc, if_pos hc, upd_same, count_cons_self_eq,
          ← List.drop_one, List.drop_drop, Nat.add_comm]
      · rw [if_neg hc, if_neg hc, if_neg hc]
    · have hin : (if a ≠ g ∧ (g, a) ∉ I then upd st a (st a).tail else st) k = st k := by
        by_cases hac : a ≠ g ∧ (g, a) ∉ I
        · rw [if_pos hac, upd_other st a _ k (fun he => hak he.symm)]
        · rw [if_neg hac]
      rw [hin, count_cons_ne hak]

theorem pushFold_apply (I : Rel) (r : Run) :
    ∀ (gl : List ℕ) (st0 : ℕ → List Bool) (k : ℕ),
      (gl.foldl (fun s h => if h ≠ r.1 ∧ (r.1, h) ∉ I then
          upd s h (List.replicate r.2 false ++ s h) else s) st0) k =
        (if k ≠ r.1 ∧ (r.1, k) ∉ I then List.replicate (gl.count k * r.2) false else []) ++
          st0 k := by
  intro gl
  induction gl with
  | nil =>
    intro st0 k
    show st0 k = _
    by_cases hc : k ≠ r.1 ∧ (r.1, k) ∉ I
    · rw [if_pos hc, List.count_nil, Nat.zero_mul, List.replicate_zero, List.nil_append]
    · rw [if_neg hc, List.nil_append]
  | cons a gl2 ih =>
    intro st0 k
    rw [List.foldl_cons, ih]
    by_cases hak : a = k
    · subst hak
      by_cases hc : a ≠ r.1 ∧ (r.1, a) ∉ I
      · rw [if_pos hc, if_pos hc, if_pos hc, upd_same, count_cons_self_eq,
          Nat.add_mul, Nat.one_mul, List.replicate_add, List.append_assoc]
      · rw [if_neg hc, if_neg hc, if_neg hc]
    · have hin : (if a ≠ r.1 ∧ (r.1, a) ∉ I then
          upd st0 a (List.replicate r.2 false ++ st0 a) else st0) k = st0 k := by
        by_cases hac : a ≠ r.1 ∧ (r.1, a) ∉ I
        · rw [if_pos hac, upd_other st0 a _ k (fun he => hak he.symm)]
        · rw [if_neg hac]
      rw [hin, count_cons_ne hak]

theorem pushRun_apply (I : Rel) (gl : List ℕ) (r : Run) (st : ℕ → List Bool) (k : ℕ) :
    pushRun I gl r st k =
      (if k = r.1 then List.replicate r.2 true
        else if (r.1, k) ∉ I then List.replicate (gl.count k * r.2) false else []) ++ st k := by
  unfold pushRun
  rw [pushFold_apply]
  by_cases hk : k = r.1
  · rw [if_pos hk, if_neg (fun hc => hc.1 hk), List.nil_append, upd, if_pos hk, hk]
  · rw [if_neg hk, upd, if_neg hk]
    by_cases hd : (r.1, k) ∉ I
    · rw [if_pos ⟨hk, hd⟩, if_pos hd]
    · rw [if_neg (fun hc => hd hc.2), if_neg hd, List.nil_append]

theorem flatten_replicate_singleton {α : Type} (m : ℕ) (a : α) :
    (List.replicate m [a]).flatten = List.replicate m a := by
  induction m with
  | zero => rfl
  | succ m ih => rw [List.replicate_succ, List.flatten_cons, ih, List.replicate_succ]; rfl

theorem flatten_replicate_replicate {α : Type} (m c : ℕ) (a : α) :
    (List.replicate m (List.replicate c a)).flatten = List.replicate (m * c) a := by
  induction m with
  | zero => rw [Nat.zero_mul]; rfl
  | succ m ih =>
    rw [List.replicate_succ, List.flatten_cons, ih, Nat.succ_mul, Nat.add_comm,
      List.replicate_add]

theorem flatten_replicate_nil {α : Type} (m : ℕ) :
    (List.replicate m ([] : List α)).flatten = [] := by
  induction m with
  | zero => rfl
  | succ m ih => rw [List.replicate_succ, List.flatten_cons, ih]; rfl

theorem buildStacks_eq_stacksOf (I : Rel) (gl : List ℕ) :
    ∀ (el : List Run) (k : ℕ), buildStacks I gl el k = stacksOf I gl (expand el) k := by
  intro el
  induction el with
  | nil => intro k; rfl
  | cons r rest ih =>
    intro k
    show pushRun I gl r (buildStacks I gl rest) k = _
    rw [pushRun_apply]
    rw [expand_cons, stacksOf_append I gl (List.replicate r.2 r.1) (expand rest) k, ← ih k]
    congr 1
    unfold stacksOf
    rw [List.map_replicate]
    by_cases hk : k = r.1
    · rw [if_pos hk]
      have hb : letterBlock I gl k r.1 = [true] := by
        unfold letterBlock
        rw [if_pos hk.symm]
      rw [hb, flatten_replicate_singleton]
    · rw [if_neg hk]
      by_cases hd : (r.1, k) ∉ I
      · rw [if_pos hd]
        have hb : letterBlock I gl k r.1 = List.replicate (gl.count k) false := by
          unfold letterBlock
          rw [if_neg (fun he => hk he.symm), if_pos hd]
        rw [hb, flatten_replicate_replicate, Nat.mul_comm]
      · rw [if_neg hd]
        have hb : letterBlock I gl k r.1 = [] := by
          unfold letterBlock
          rw [if_neg (fun he => hk he.symm), if_neg hd]
        rw [hb, flatten_replicate_nil]

theorem stacksOf_head_true_iff (I : Rel) (gl : List ℕ) (g : ℕ) (hirr : IrrRel I)
    (hcnt : 0 < gl.count g) :
    ∀ w, (stacksOf I gl w g).head? = some true ↔ movable I g w := by
  intro w
  induction w with
  | nil =>
    rw [stacksOf_nil]
    unfold movable
    simp
  | cons x t ih =>
    rw [stacksOf_cons I gl x t g]
    unfold movable
    rw [List.filter_cons]
    by_cases hx : x = g
    · subst hx
      have hb : letterBlock I gl x x = [true] := by
        unfold letterBlock
        rw [if_pos rfl]
      rw [hb, if_pos (show relKeep I x x = true from decide_eq_true (hirr x))]
      simp
    · have hb0 : letterBlock I gl g x = (if (x, g) ∉ I then
          List.replicate (gl.count g) false else []) := by
        unfold letterBlock
        rw [if_neg hx]
      rw [hb0]
      by_cases hd : (x, g) ∉ I
      · rw [if_pos hd, if_pos (show relKeep I g x = true from decide_eq_true hd)]
        obtain ⟨c, hc⟩ := Nat.exists_eq_add_of_lt hcnt
        rw [hc, Nat.zero_add, List.replicate_succ]
        constructor
        · intro hh
          simp at hh
        · intro hh
          simp only [List.head?_cons, Option.some.injEq] at hh
          exact absurd hh hx
      · rw [if_neg hd,
          if_neg (show ¬relKeep I g x = true from by
            unfold relKeep
            simp only [decide_eq_true_eq]
            exact fun hn => hn (not_not.mp hd)),
          List.nil_append]
        exact ih

theorem stacksOf_indep_nil (I : Rel) (gl : List ℕ) (g : ℕ) (hirr : IrrRel I)
    (u : List ℕ) (hu : ∀ x ∈ u, (x, g) ∈ I) : stacksOf I gl u g = [] := by
  induction u with
  | nil => rfl
  | cons x t ih =>
    rw [stacksOf_cons]
    have hxg : x ≠ g := fun he => hirr g (he ▸ hu x (List.mem_cons_self x t))
    have hb : letterBlock I gl g x = [] := by
      unfold letterBlock
      rw [if_neg hxg, if_neg (fun hn => hn (hu x (List.mem_cons_self x t)))]
    rw [hb, List.nil_append]
    exact ih (fun y hy => hu y (List.mem_cons_of_mem x hy))

theorem stacksOf_false_blocks (I : Rel) (gl : List ℕ) (k g : ℕ) (hsym : SymRel I)
    (hdep : (g, k) ∉ I) (u : List ℕ) (hu : ∀ x ∈ u, (x, g) ∈ I) :
    ∃ K, stacksOf I gl u k = List.replicate K false := by
  induction u with
  | nil => exact ⟨0, rfl⟩
  | cons x t ih =>
    obtain ⟨K, hK⟩ := ih (fun y hy => hu y (List.mem_cons_of_mem x hy))
    rw [stacksOf_cons, hK]
    have hxk : x ≠ k := by
      intro he
      subst he
      exact hdep (hsym x g (hu x (List.mem_cons_self x t)))
    have hb0 : letterBlock I gl k x = (if (x, k) ∉ I then
        List.replicate (gl.count k) false else []) := by
      unfold letterBlock
      rw [if_neg hxk]
    rw [hb0]
    by_cases hd : (x, k) ∉ I
    · rw [if_pos hd]
      exact ⟨gl.count k + K, by rw [List.replicate_add]⟩
    · rw [if_neg hd]
      exact ⟨K, by rw [List.nil_append]⟩

theorem fire_stacksOf (I : Rel) (gl : List ℕ) (hsym : SymRel I) (hirr : IrrRel I)
    {g : ℕ} {w : List ℕ} (hmov : movable I g w) (k : ℕ) :
    resolve I gl g (upd (stacksOf I gl w) g (stacksOf I gl w g).tail) k =
      stacksOf I gl (w.erase g) k := by
  obtain ⟨u, v, hw, hu, herase⟩ := movable_decomp_erase hirr hmov
  rw [resolve_apply, herase]
  by_cases hkg : k = g
  · subst hkg
    rw [if_neg (fun hc => hc.1 rfl), upd_same, hw,
      stacksOf_append I gl u (k :: v) k, stacksOf_append I gl u v k,
      stacksOf_cons I gl k v k, stacksOf_indep_nil I gl k hirr u hu]
    have hb : letterBlock I gl k k = [true] := by
      unfold letterBlock
      rw [if_pos rfl]
    rw [hb]
    rfl
  · rw [upd_other _ _ _ _ hkg]
    by_cases hd : (g, k) ∉ I
    · rw [if_pos ⟨hkg, hd⟩, hw, stacksOf_append I gl u (g :: v) k,
        stacksOf_append I gl u v k, stacksOf_cons I gl g v k]
      obtain ⟨K, hK⟩ := stacksOf_false_blocks I gl k g hsym hd u hu
      have hb : letterBlock I gl k g = List.replicate (gl.count k) false := by
        unfold letterBlock
        rw [if_neg (fun he => hkg he.symm), if_pos hd]
      rw [hK, hb, ← List.append_assoc, ← List.replicate_add,
        Nat.add_comm K (gl.count k), List.replicate_add, List.append_assoc]
      have hdl := List.drop_left (List.replicate (gl.count k) false)
        (List.replicate K false ++ stacksOf I gl v k)
      rw [List.length_replicate] at hdl
      rw [hdl]
    · rw [if_neg (fun hc => hd hc.2), hw, stacksOf_append I gl u (g :: v) k,
        stacksOf_append I gl u v k, stacksOf_cons I gl g v k]
      have hb : letterBlock I gl k g = [] := by
        unfold letterBlock
        rw [if_neg (fun he => hkg he.symm), if_neg hd]
      rw [hb, List.nil_append]

theorem stackLoop_succ_some (I : Rel) (gl gs : List ℕ) (n : ℕ) (st : ℕ → List Bool)
    (acc : List ℕ) (g : ℕ)
    (h : gs.find? (fun g => (st g).head? == some true) = some g) :
    stackLoop I gl gs (n + 1) st acc =
      stackLoop I gl gs n (resolve I gl g (upd st g (st g).tail)) (acc ++ [g]) := by
  show (match gs.find? (fun g => (st g).head? == some true) with
    | some g => stackLoop I gl gs n (resolve I gl g (upd st g (st g).tail)) (acc ++ [g])
    | none => if gs.all (fun g => (st g).isEmpty) then some acc else none) = _
  rw [h]

theorem stackLoop_succ_none (I : Rel) (gl gs : List ℕ) (n : ℕ) (st : ℕ → List Bool)
    (acc : List ℕ) (h : gs.find? (fun g => (st g).head? == some true) = none) :
    stackLoop I gl gs (n + 1) st acc =
      if gs.all (fun g => (st g).isEmpty) then some acc else none := by
  show (match gs.find? (fun g => (st g).head? == some true) with
    | some g => stackLoop I gl gs n (resolve I gl g (upd st g (st g).tail)) (acc ++ [g])
    | none => if gs.all (fun g => (st g).isEmpty) then some acc else none) = _
  rw [h]

theorem head_beq_movableb (I : Rel) (gl : List ℕ) (hirr : IrrRel I) (w : List ℕ)
    (g : ℕ) (hcnt : 0 < gl.count g) :
    ((stacksOf I gl w g).head? == some true) = movableb I g w := by
  have hiff := stacksOf_head_true_iff I gl g hirr hcnt w
  by_cases hm : movable I g w
  · rw [(movableb_iff I g w).mpr hm, beq_iff_eq.mpr (hiff.mpr hm)]
  · rw [Bool.eq_false_iff.mpr (fun hb => hm ((movableb_iff I g w).mp hb)),
      Bool.eq_false_iff.mpr (fun hb => hm (hiff.mp (beq_iff_eq.mp hb)))]

theorem stackLoop_eq (I : Rel) (gl gs : List ℕ) (hsym : SymRel I) (hirr : IrrRel I)
    (hgs : ∀ g ∈ gs, 0 < gl.count g) :
    ∀ n (rem : List ℕ) (acc : List ℕ), rem.length < n → (∀ x ∈ rem, x ∈ gs) →
      stackLoop I gl gs n (stacksOf I gl rem) acc = some (acc ++ nfAux I gs rem) := by
  intro n
  induction n with
  | zero => intro rem acc h _; exact absurd h (Nat.not_lt_zero _)
  | succ n ih =>
    intro rem acc hlen hcomp
    cases rem with
    | nil =>
      have hfnone : gs.find? (fun g => (stacksOf I gl [] g).head? == some true) = none := by
        rw [List.find?_eq_none]
        intro g _
        rw [stacksOf_nil]
        simp
      rw [stackLoop_succ_none I gl gs n _ acc hfnone,
        if_pos (List.all_eq_true.mpr (fun g _ => by rw [stacksOf_nil]; rfl)),
        nfAux_nil, List.append_nil]
    | cons a t =>
      have hpt : ∀ g ∈ gs, ((stacksOf I gl (a :: t) g).head? == some true) =
          movableb I g (a :: t) := fun g hg =>
        head_beq_movableb I gl hirr (a :: t) g (hgs g hg)
      obtain ⟨g, hfindm⟩ := nfAux_find_some I gs hirr a t (hcomp a (List.mem_cons_self a t))
      have hfinds : gs.find? (fun g => (stacksOf I gl (a :: t) g).head? == some true) =
          some g := by
        rw [find?_congr_pt gs _ _ hpt]
        exact hfindm
      rw [stackLoop_succ_some I gl gs n _ acc g hfinds]
      have hmov := find?_movable_spec I gs (a :: t) g hfindm
      have hgmem : g ∈ a :: t := movable_mem hmov
      have hst : resolve I gl g
          (upd (stacksOf I gl (a :: t)) g (stacksOf I gl (a :: t) g).tail) =
          stacksOf I gl ((a :: t).erase g) :=
        funext (fire_stacksOf I gl hsym hirr hmov)
      rw [hst]
      have hlen2 : ((a :: t).erase g).length < n := by
        rw [List.length_erase_of_mem hgmem]
        simp only [List.length_cons] at hlen ⊢
        omega
      have hcomp2 : ∀ x ∈ (a :: t).erase g, x ∈ gs := fun x hx =>
        hcomp x ((List.erase_sublist g (a :: t)).mem hx)
      rw [ih ((a :: t).erase g) (acc ++ [g]) hlen2 hcomp2,
        nfAux_eq_some I gs (a :: t) g hfindm, List.append_assoc]
      rfl

theorem insertSorted_perm (x : ℕ) : ∀ l : List ℕ, (insertSorted x l).Perm (x :: l) := by
  intro l
  induction l with
  | nil => exact List.Perm.refl _
  | cons y ys ih =>
    show (if x ≤ y then x :: y :: ys else y :: insertSorted x ys).Perm _
    by_cases hxy : x ≤ y
    · rw [if_pos hxy]
    · rw [if_neg hxy]
      exact (ih.cons y).trans (List.Perm.swap x y ys)

theorem sortAsc_perm : ∀ l : List ℕ, (sortAsc l).Perm l := by
  intro l
  induction l with
  | nil => exact List.Perm.refl _
  | cons a t ih =>
    show (insertSorted a (sortAsc t)).Perm (a :: t)
    exact (insertSorted_perm a (sortAsc t)).trans (ih.cons a)

theorem insertSorted_sorted (x : ℕ) :
    ∀ l : List ℕ, List.Sorted (fun a b : ℕ => a ≤ b) l →
      List.Sorted (fun a b : ℕ => a ≤ b) (insertSorted x l) := by
  intro l
  induction l with
  | nil => intro _; exact List.sorted_singleton x
  | cons y ys ih =>
    intro hs
    obtain ⟨hy, hys⟩ := List.sorted_cons.mp hs
    show List.Sorted _ (if x ≤ y then x :: y :: ys else y :: insertSorted x ys)
    by_cases hxy : x ≤ y
    · rw [if_pos hxy]
      exact List.sorted_cons.mpr ⟨fun b hb => by
        rcases List.mem_cons.mp hb with rfl | hb2
        · exact hxy
        · exact Nat.le_trans hxy (hy b hb2), hs⟩
    · rw [if_neg hxy]
      refine List.sorted_cons.mpr ⟨?_, ih hys⟩
      intro b hb
      rcases List.mem_cons.mp ((insertSorted_perm x ys).mem_iff.mp hb) with rfl | hb2
      · exact Nat.le_of_not_le hxy
      · exact hy b hb2

theorem sortAsc_sorted : ∀ l : List ℕ, List.Sorted (fun a b : ℕ => a ≤ b) (sortAsc l) := by
  intro l
  induction l with
  | nil => exact List.sorted_nil
  | cons a t ih => exact insertSorted_sorted a (sortAsc t) ih

theorem expand_mem_gensSet (el : List Run) : ∀ x ∈ expand el, x ∈ gensSet el := by
  intro x hx
  unfold gensSet
  rw [List.mem_dedup]
  unfold gensList
  rw [(sortAsc_perm (el.map Prod.fst)).mem_iff]
  unfold expand at hx
  obtain ⟨b, hb, hxb⟩ := List.mem_flatten.mp hx
  obtain ⟨r, hr, rfl⟩ := List.mem_map.mp hb
  have hxr : x = r.1 := List.eq_of_mem_replicate hxb
  subst hxr
  exact List.mem_map.mpr ⟨r, hr, rfl⟩

theorem gensSet_count_pos (el : List Run) :
    ∀ g ∈ gensSet el, 0 < (gensList el).count g := by
  intro g hg
  rw [List.count_pos_iff]
  exact List.mem_dedup.mp hg

theorem stackLexNF_eq_nf (I : Rel) (el : List Run) (hsym : SymRel I) (hirr : IrrRel I) :
    stackLexNF I el =
      some (mkRuns ((nfAux I (gensSet el) (expand el)).map (fun e => (e, 1)))) := by
  unfold stackLexNF
  by_cases he : el.isEmpty
  · rw [if_pos he]
    have hel : el = [] := List.isEmpty_iff.mp he
    subst hel
    rw [show expand ([] : List Run) = [] from rfl, nfAux_nil]
    rfl
  · rw [if_neg he]
    have hbs : buildStacks I (gensList el) el = stacksOf I (gensList el) (expand el) :=
      funext (buildStacks_eq_stacksOf I (gensList el) el)
    rw [hbs, stackLoop_eq I (gensList el) (gensSet el) hsym hirr (gensSet_count_pos el)
      ((expand el).length + 1) (expand el) [] (Nat.lt_succ_self _) (expand_mem_gensSet el)]
    rfl

theorem find?_sorted_spec (p : ℕ → Bool) :
    ∀ gs : List ℕ, List.Sorted (fun a b : ℕ => a ≤ b) gs → (∀ x, p x = true → x ∈ gs) →
      (gs.find? p = none ∧ ∀ x, p x = false) ∨
        (∃ m, gs.find? p = some m ∧ p m = true ∧ ∀ x, p x = true → m ≤ x) := by
  intro gs
  induction gs with
  | nil =>
    intro _ hc
    left
    refine ⟨rfl, fun x => ?_⟩
    cases hp : p x
    · rfl
    · exact absurd (hc x hp) (List.not_mem_nil x)
  | cons a t ih =>
    intro hs hc
    obtain ⟨hat, hts⟩ := List.sorted_cons.mp hs
    cases hp : p a
    · have hstep : (a :: t).find? p = t.find? p := by
        show (match p a with | true => some a | false => t.find? p) = _
        rw [hp]
      have hc2 : ∀ x, p x = true → x ∈ t := by
        intro x hx
        rcases List.mem_cons.mp (hc x hx) with rfl | hm
        · rw [hp] at hx
          exact absurd hx (by decide)
        · exact hm
      rcases ih hts hc2 with ⟨h1, h2⟩ | ⟨m, h1, h2, h3⟩
      · left
        exact ⟨by rw [hstep]; exact h1, h2⟩
      · right
        exact ⟨m, by rw [hstep]; exact h1, h2, h3⟩
    · right
      refine ⟨a, ?_, hp, ?_⟩
      · show (match p a with | true => some a | false => t.find? p) = _
        rw [hp]
      · intro x hx
        rcases List.mem_cons.mp (hc x hx) with rfl | hm
        · exact Nat.le_refl x
        · exact hat x hm

theorem find?_sorted_eq (p : ℕ → Bool) (gs gs2 : List ℕ)
    (hs : List.Sorted (fun a b : ℕ => a ≤ b) gs) (hc : ∀ x, p x = true → x ∈ gs)
    (hs2 : List.Sorted (fun a b : ℕ => a ≤ b) gs2) (hc2 : ∀ x, p x = true → x ∈ gs2) :
    gs.find? p = gs2.find? p := by
  rcases find?_sorted_spec p gs hs hc with ⟨h1, h2⟩ | ⟨m, h1, h2, h3⟩ <;>
    rcases find?_sorted_spec p gs2 hs2 hc2 with ⟨h4, h5⟩ | ⟨m2, h4, h5, h6⟩
  · rw [h1, h4]
  · rw [h2 m2] at h5
    exact absurd h5 (by decide)
  · rw [h5 m] at h2
    exact absurd h2 (by decide)
  · rw [h1, h4]
    rw [Nat.le_antisymm (h3 m2 h5) (h6 m h2)]

theorem gensSet_sorted (el : List Run) :
    List.Sorted (fun a b : ℕ => a ≤ b) (gensSet el) := by
  unfold gensSet gensList
  exact List.Pairwise.sublist (List.dedup_sublist _) (sortAsc_sorted (el.map Prod.fst))

theorem nfAux_gs_eq (I : Rel) (gs gs2 : List ℕ)
    (hs : List.Sorted (fun a b : ℕ => a ≤ b) gs)
    (hs2 : List.Sorted (fun a b : ℕ => a ≤ b) gs2) :
    ∀ n (z : List ℕ), z.length ≤ n → (∀ x ∈ z, x ∈ gs) → (∀ x ∈ z, x ∈ gs2) →
      nfAux I gs z = nfAux I gs2 z := by
  intro n
  induction n with
  | zero =>
    intro z hz _ _
    have : z = [] := List.length_eq_zero.mp (Nat.le_zero.mp hz)
    subst this
    rw [nfAux_nil, nfAux_nil]
  | succ n ih =>
    intro z hz hcz hcz2
    have hcp : ∀ x, movableb I x z = true → x ∈ gs := fun x hx =>
      hcz x (movable_mem ((movableb_iff I x z).mp hx))
    have hcp2 : ∀ x, movableb I x z = true → x ∈ gs2 := fun x hx =>
      hcz2 x (movable_mem ((movableb_iff I x z).mp hx))
    have hfeq := find?_sorted_eq (fun g => movableb I g z) gs gs2 hs hcp hs2 hcp2
    cases hf : gs.find? (fun g => movableb I g z) with
    | none =>
      rw [nfAux_eq_none I gs z hf, nfAux_eq_none I gs2 z (by rw [← hfeq]; exact hf)]
    | some g =>
      have hf2 : gs2.find? (fun g => movableb I g z) = some g := by
        rw [← hfeq]
        exact hf
      rw [nfAux_eq_some I gs z g hf, nfAux_eq_some I gs2 z g hf2]
      have hgmem : g ∈ z := movable_mem (find?_movable_spec I gs z g hf)
      have hlen2 : (z.erase g).length ≤ n := by
        rw [List.length_erase_of_mem hgmem]
        have : 0 < z.length := List.length_pos.mpr (by rintro rfl; simp at hgmem)
        omega
      rw [ih (z.erase g) hlen2
        (fun x hx => hcz x ((List.erase_sublist g z).mem hx))
        (fun x hx => hcz2 x ((List.erase_sublist g z).mem hx))]

theorem stackLexNF_idem (I : Rel) (el : List Run) (hsym : SymRel I) (hirr : IrrRel I) :
    ∃ y, stackLexNF I el = some y ∧ stackLexNF I y = some y := by
  refine ⟨mkRuns ((nfAux I (gensSet el) (expand el)).map (fun e => (e, 1))),
    stackLexNF_eq_nf I el hsym hirr, ?_⟩
  rw [stackLexNF_eq_nf I (mkRuns ((nfAux I (gensSet el) (expand el)).map (fun e => (e, 1))))
    hsym hirr]
  have hexp : expand (mkRuns ((nfAux I (gensSet el) (expand el)).map (fun e => (e, 1)))) =
      nfAux I (gensSet el) (expand el) := by
    rw [expand_mkRuns, expand_singletons]
  have hcompout : ∀ x ∈ nfAux I (gensSet el) (expand el), x ∈ gensSet el := by
    intro x hx
    apply expand_mem_gensSet el
    exact ((nfAux_perm I (gensSet el) hirr (expand el).length (expand el) (Nat.le_refl _)
      (expand_mem_gensSet el)).mem_iff).mp hx
  have hcompy : ∀ x ∈ nfAux I (gensSet el) (expand el),
      x ∈ gensSet (mkRuns ((nfAux I (gensSet el) (expand el)).map (fun e => (e, 1)))) := by
    intro x hx
    apply expand_mem_gensSet
    rw [hexp]
    exact hx
  have hnfy : nfAux I
      (gensSet (mkRuns ((nfAux I (gensSet el) (expand el)).map (fun e => (e, 1)))))
      (expand (mkRuns ((nfAux I (gensSet el) (expand el)).map (fun e => (e, 1))))) =
      nfAux I (gensSet el) (expand el) := by
    rw [hexp]
    rw [nfAux_gs_eq I
      (gensSet (mkRuns ((nfAux I (gensSet el) (expand el)).map (fun e => (e, 1)))))
      (gensSet el) (gensSet_sorted _) (gensSet_sorted el)
      (nfAux I (gensSet el) (expand el)).length (nfAux I (gensSet el) (expand el))
      (Nat.le_refl _) hcompy hcompout]
    exact nfAux_idem I (gensSet el) hsym hirr (expand el).length (expand el)
      (Nat.le_refl _) (expand_mem_gensSet el)
  rw [hnfy]

/-- Pop the top marker of every stack in `S`. -/
def popsAll (S : List ℕ) (st : ℕ → List Bool) : ℕ → List Bool :=
  fun k => if k ∈ S then (st k).tail else st k

/-- Remove the first occurrence of every member of `S` from `rem`. -/
def removeAll (S rem : List ℕ) : List ℕ := S.foldl (fun r g => r.erase g) rem

theorem removeAll_nil (rem : List ℕ) : removeAll [] rem = rem := rfl

theorem removeAll_cons (g : ℕ) (S rem : List ℕ) :
    removeAll (g :: S) rem = removeAll S (rem.erase g) := rfl

theorem removeAll_sublist : ∀ (S rem : List ℕ), (removeAll S rem).Sublist rem := by
  intro S
  induction S with
  | nil => intro rem; exact List.Sublist.refl rem
  | cons g S2 ih =>
    intro rem
    rw [removeAll_cons]
    exact (ih (rem.erase g)).trans (List.erase_sublist g rem)

theorem removeAll_lt : ∀ (S rem : List ℕ) (g : ℕ), g ∈ S → g ∈ rem →
    (removeAll S rem).length < rem.length := by
  intro S
  induction S with
  | nil => intro rem g hg; exact absurd hg (List.not_mem_nil g)
  | cons a S2 ih =>
    intro rem g hg hgr
    rw [removeAll_cons]
    by_cases hga : g = a
    · subst hga
      calc (removeAll S2 (rem.erase g)).length
          ≤ (rem.erase g).length := (removeAll_sublist S2 (rem.erase g)).length_le
        _ < rem.length := by
            rw [List.length_erase_of_mem hgr]
            have : 0 < rem.length := List.length_pos.mpr (by rintro rfl; simp at hgr)
            omega
    · rcases List.mem_cons.mp hg with he | hg2
      · exact absurd he hga
      · exact Nat.lt_of_lt_of_le
          (ih (rem.erase a) g hg2 ((List.mem_erase_of_ne hga).mpr hgr))
          (List.length_erase_le a rem)

theorem foataCollect_fold (st : ℕ → List Bool) :
    ∀ (gs : List ℕ) (S0 : List ℕ) (st0 : ℕ → List Bool), gs.Nodup →
      (∀ g ∈ gs, st0 g = st g) →
      (gs.foldl (fun p g =>
          if (p.2 g).head? = some true then (p.1 ++ [g], upd p.2 g (p.2 g).tail) else p)
        (S0, st0)).1 = S0 ++ gs.filter (fun g => decide ((st g).head? = some true)) ∧
      ∀ k, (gs.foldl (fun p g =>
          if (p.2 g).head? = some true then (p.1 ++ [g], upd p.2 g (p.2 g).tail) else p)
        (S0, st0)).2 k =
        if k ∈ gs ∧ (st k).head? = some true then (st k).tail else st0 k := by
  intro gs
  induction gs with
  | nil =>
    intro S0 st0 _ _
    constructor
    · rw [List.foldl_nil, List.filter_nil, List.append_nil]
    · intro k
      rw [List.foldl_nil, if_neg (fun hc => (List.not_mem_nil k) hc.1)]
  | cons a t ih =>
    intro S0 st0 hnd hag
    obtain ⟨hat, hndt⟩ := List.nodup_cons.mp hnd
    have hsta : st0 a = st a := hag a (List.mem_cons_self a t)
    rw [List.foldl_cons]
    by_cases htop : (st0 a).head? = some true
    · rw [if_pos htop]
      have hagt : ∀ g ∈ t, upd st0 a (st0 a).tail g = st g := by
        intro g hgt
        rw [upd_other st0 a _ g (fun he => hat (he ▸ hgt))]
        exact hag g (List.mem_cons_of_mem a hgt)
      obtain ⟨h1, h2⟩ := ih (S0 ++ [a]) (upd st0 a (st0 a).tail) hndt hagt
      constructor
      · rw [h1, List.filter_cons,
          if_pos (decide_eq_true (show (st a).head? = some true from hsta ▸ htop)),
          List.append_assoc]
        rfl
      · intro k
        rw [h2 k]
        by_cases hkt : k ∈ t ∧ (st k).head? = some true
        · rw [if_pos hkt, if_pos ⟨List.mem_cons_of_mem a hkt.1, hkt.2⟩]
        · rw [if_neg hkt]
          by_cases hka : k = a
          · subst hka
            rw [upd_same, hsta,
              if_pos ⟨List.mem_cons_self k t, hsta ▸ htop⟩]
          · rw [upd_other st0 a _ k hka]
            have : ¬(k ∈ a :: t ∧ (st k).head? = some true) := by
              rintro ⟨hm, htt⟩
              rcases List.mem_cons.mp hm with he | hm2
              · exact hka he
              · exact hkt ⟨hm2, htt⟩
            rw [if_neg this]
    · rw [if_neg htop]
      obtain ⟨h1, h2⟩ := ih S0 st0 hndt (fun g hgt => hag g (List.mem_cons_of_mem a hgt))
      constructor
      · rw [h1, List.filter_cons,
          if_neg (show ¬(decide ((st a).head? = some true) = true) from by
            rw [decide_eq_true_eq]
            exact fun hc => htop (by rw [hsta]; exact hc))]
      · intro k
        rw [h2 k]
        by_cases hkt : k ∈ t ∧ (st k).head? = some true
        · rw [if_pos hkt, if_pos ⟨List.mem_cons_of_mem a hkt.1, hkt.2⟩]
        · rw [if_neg hkt]
          have : ¬(k ∈ a :: t ∧ (st k).head? = some true) := by
            rintro ⟨hm, htt⟩
            rcases List.mem_cons.mp hm with he | hm2
            · subst he
              exact htop (by rw [hsta]; exact htt)
            · exact hkt ⟨hm2, htt⟩
          rw [if_neg this]

theorem foataCollect_fst (gs : List ℕ) (st : ℕ → List Bool) (hnd : gs.Nodup) :
    (foataCollect gs st).1 = gs.filter (fun g => decide ((st g).head? = some true)) :=
  (foataCollect_fold st gs [] st hnd (fun _ _ => rfl)).1

theorem foataCollect_snd (gs : List ℕ) (st : ℕ → List Bool) (hnd : gs.Nodup) (k : ℕ) :
    (foataCollect gs st).2 k =
      if k ∈ gs ∧ (st k).head? = some true then (st k).tail else st k :=
  (foataCollect_fold st gs [] st hnd (fun _ _ => rfl)).2 k

theorem foataCollect_snd_popsAll (gs : List ℕ) (st : ℕ → List Bool) (hnd : gs.Nodup) :
    (foataCollect gs st).2 = popsAll (foataCollect gs st).1 st := by
  funext k
  rw [foataCollect_snd gs st hnd k, popsAll, foataCollect_fst gs st hnd]
  by_cases hk : k ∈ gs ∧ (st k).head? = some true
  · rw [if_pos hk, if_pos (List.mem_filter.mpr ⟨hk.1, decide_eq_true hk.2⟩)]
  · rw [if_neg hk, if_neg (fun hm => hk ⟨List.mem_of_mem_filter hm,
      of_decide_eq_true (List.mem_filter.mp hm).2⟩)]

theorem movable_pair_indep (I : Rel) (hsym : SymRel I) :
    ∀ (w : List ℕ) {g h : ℕ}, movable I g w → movable I h w → g ≠ h → (g, h) ∈ I := by
  intro w
  induction w with
  | nil =>
    intro g h hg _ _
    unfold movable at hg
    simp at hg
  | cons x t ih =>
    intro g h hg hh hne
    unfold movable at hg hh
    rw [List.filter_cons] at hg hh
    by_cases hkg : relKeep I g x = true
    · rw [if_pos hkg] at hg
      simp only [List.head?_cons, Option.some.injEq] at hg
      subst hg
      by_cases hkh : relKeep I h x = true
      · rw [if_pos hkh] at hh
        simp only [List.head?_cons, Option.some.injEq] at hh
        exact absurd hh hne
      · have : ¬((x, h) ∉ I) := fun hn => hkh (decide_eq_true hn)
        exact not_not.mp this
    · rw [if_neg hkg] at hg
      by_cases hkh : relKeep I h x = true
      · rw [if_pos hkh] at hh
        simp only [List.head?_cons, Option.some.injEq] at hh
        subst hh
        have hxg : (x, g) ∈ I := not_not.mp (fun hn => hkg (decide_eq_true hn))
        exact hsym x g hxg
      · rw [if_neg hkh] at hh
        exact ih hg hh hne

theorem filter_erase_not_kept {p : ℕ → Bool} {g : ℕ} (hp : p g = false) :
    ∀ w : List ℕ, (w.erase g).filter p = w.filter p := by
  intro w
  induction w with
  | nil => rfl
  | cons a t ih =>
    by_cases hag : a = g
    · subst hag
      rw [List.erase_cons_head, List.filter_cons, if_neg (by rw [hp]; simp)]
    · rw [List.erase_cons_tail (by simpa using hag), List.filter_cons, List.filter_cons, ih]

theorem movable_erase_indep (I : Rel) {h g : ℕ} {w : List ℕ} (hmov : movable I h w)
    (hin : (g, h) ∈ I) : movable I h (w.erase g) := by
  unfold movable at hmov ⊢
  rw [filter_erase_not_kept (show relKeep I h g = false from by
    unfold relKeep
    simp only [decide_eq_false_iff_not]
    exact fun hn => hn hin) w]
  exact hmov

theorem popsAll_cons (g : ℕ) (S : List ℕ) (st : ℕ → List Bool) (hgs : g ∉ S) :
    popsAll (g :: S) st = popsAll S (upd st g (st g).tail) := by
  funext k
  unfold popsAll
  by_cases hk : k = g
  · subst hk
    rw [if_pos (List.mem_cons_self k S), if_neg hgs, upd_same]
  · by_cases hks : k ∈ S
    · rw [if_pos (List.mem_cons_of_mem g hks), if_pos hks, upd_other st g _ k hk]
    · rw [if_neg (fun hm => by
        rcases List.mem_cons.mp hm with he | hm2
        · exact hk he
        · exact hks hm2), if_neg hks, upd_other st g _ k hk]

theorem resolve_popsAll_comm (I : Rel) (gl : List ℕ) (g : ℕ) (S : List ℕ)
    (hS : ∀ h ∈ S, (g, h) ∈ I) (z : ℕ → List Bool) :
    resolve I gl g (popsAll S z) = popsAll S (resolve I gl g z) := by
  funext k
  by_cases hks : k ∈ S
  · have hcond : ¬(k ≠ g ∧ (g, k) ∉ I) := fun hc => hc.2 (hS k hks)
    show resolve I gl g (popsAll S z) k = popsAll S (resolve I gl g z) k
    rw [resolve_apply, if_neg hcond]
    unfold popsAll
    rw [if_pos hks, if_pos hks, resolve_apply, if_neg hcond]
  · show resolve I gl g (popsAll S z) k = popsAll S (resolve I gl g z) k
    rw [resolve_apply]
    unfold popsAll
    rw [if_neg hks, if_neg hks, resolve_apply]

theorem roundFires (I : Rel) (gl : List ℕ) (hsym : SymRel I) (hirr : IrrRel I) :
    ∀ (S rem : List ℕ), S.Nodup → (∀ g ∈ S, movable I g rem) →
      (∀ g ∈ S, ∀ h ∈ S, g ≠ h → (g, h) ∈ I) →
      S.foldl (fun s g => resolve I gl g s) (popsAll S (stacksOf I gl rem)) =
        stacksOf I gl (removeAll S rem) := by
  intro S
  induction S with
  | nil =>
    intro rem _ _ _
    rw [List.foldl_nil, removeAll_nil]
    funext k
    unfold popsAll
    rw [if_neg (List.not_mem_nil k)]
  | cons g S2 ih =>
    intro rem hnd hmov hpair
    obtain ⟨hgs, hnd2⟩ := List.nodup_cons.mp hnd
    rw [List.foldl_cons, removeAll_cons,
      popsAll_cons g S2 (stacksOf I gl rem) hgs,
      resolve_popsAll_comm I gl g S2
        (fun h hh => hpair g (List.mem_cons_self g S2) h (List.mem_cons_of_mem g hh)
          (fun he => hgs (he ▸ hh))) (upd (stacksOf I gl rem) g (stacksOf I gl rem g).tail),
      funext (fire_stacksOf I gl hsym hirr (hmov g (List.mem_cons_self g S2)))]
    exact ih (rem.erase g) hnd2
      (fun h hh => movable_erase_indep I (hmov h (List.mem_cons_of_mem g hh))
        (hpair g (List.mem_cons_self g S2) h (List.mem_cons_of_mem g hh)
          (fun he => hgs (he ▸ hh))))
      (fun a ha b hb hab => hpair a (List.mem_cons_of_mem g ha) b
        (List.mem_cons_of_mem g hb) hab)

/-- Reference description of the rounds of `foata_norm_form`: each round
fires all movable generators at once. -/
def foataRef (I : Rel) (gs : List ℕ) (rem : List ℕ) : List (List ℕ) :=
  if hS : gs.filter (fun g => movableb I g rem) = [] then []
  else (gs.filter (fun g => movableb I g rem)) ::
    foataRef I gs (removeAll (gs.filter (fun g => movableb I g rem)) rem)
termination_by rem.length
decreasing_by
  obtain ⟨g, hgf⟩ := List.exists_mem_of_ne_nil _ hS
  have hmov : movable I g rem :=
    (movableb_iff I g rem).mp (List.mem_filter.mp hgf).2
  exact removeAll_lt (gs.filter (fun g => movableb I g rem)) rem g hgf (movable_mem hmov)

theorem foataRef_eq_nil (I : Rel) (gs rem : List ℕ)
    (hS : gs.filter (fun g => movableb I g rem) = []) : foataRef I gs rem = [] := by
  rw [foataRef, dif_pos hS]

theorem foataRef_eq_cons (I : Rel) (gs rem : List ℕ)
    (hS : gs.filter (fun g => movableb I g rem) ≠ []) :
    foataRef I gs rem = (gs.filter (fun g => movableb I g rem)) ::
      foataRef I gs (removeAll (gs.filter (fun g => movableb I g rem)) rem) := by
  rw [foataRef, dif_neg hS]

theorem foataRef_nil (I : Rel) (gs : List ℕ) : foataRef I gs [] = [] := by
  apply foataRef_eq_nil
  rw [List.filter_eq_nil_iff]
  intro g _
  rw [movableb_iff]
  unfold movable
  simp

theorem movableb_head (I : Rel) (hirr : IrrRel I) (a : ℕ) (t : List ℕ) :
    movableb I a (a :: t) = true :=
  (movableb_iff I a (a :: t)).mpr (movable_cons_self I a t hirr)

theorem foataLoop_succ_halt (I : Rel) (gl gs : List ℕ) (n : ℕ) (st : ℕ → List Bool)
    (acc : List (List ℕ)) (h : gs.all (fun g => (st g).isEmpty) = true) :
    foataLoop I gl gs (n + 1) st acc = some acc := by
  show (if gs.all (fun g => (st g).isEmpty) then some acc
    else
      let p := foataCollect gs st
      if p.1.isEmpty then none
      else foataLoop I gl gs n (p.1.foldl (fun s g => resolve I gl g s) p.2)
        (acc ++ [p.1])) = _
  rw [if_pos h]

theorem foataLoop_succ_step (I : Rel) (gl gs : List ℕ) (n : ℕ) (st : ℕ → List Bool)
    (acc : List (List ℕ)) (h : ¬(gs.all (fun g => (st g).isEmpty) = true))
    (h2 : ¬((foataCollect gs st).1.isEmpty = true)) :
    foataLoop I gl gs (n + 1) st acc =
      foataLoop I gl gs n
        ((foataCollect gs st).1.foldl (fun s g => resolve I gl g s) (foataCollect gs st).2)
        (acc ++ [(foataCollect gs st).1]) := by
  show (if gs.all (fun g => (st g).isEmpty) then some acc
    else
      let p := foataCollect gs st
      if p.1.isEmpty then none
      else foataLoop I gl gs n (p.1.foldl (fun s g => resolve I gl g s) p.2)
        (acc ++ [p.1])) = _
  rw [if_neg h]
  show (if (foataCollect gs st).1.isEmpty then none
    else foataLoop I gl gs n
      ((foataCollect gs st).1.foldl (fun s g => resolve I gl g s) (foataCollect gs st).2)
      (acc ++ [(foataCollect gs st).1])) = _
  rw [if_neg h2]

theorem foataLoop_eq (I : Rel) (gl gs : List ℕ) (hsym : SymRel I) (hirr : IrrRel I)
    (hgs : ∀ g ∈ gs, 0 < gl.count g) (hnd : gs.Nodup) :
    ∀ n (rem : List ℕ) (acc : List (List ℕ)), rem.length < n → (∀ x ∈ rem, x ∈ gs) →
      foataLoop I gl gs n (stacksOf I gl rem) acc = some (acc ++ foataRef I gs rem) := by
  intro n
  induction n with
  | zero => intro rem acc h _; exact absurd h (Nat.not_lt_zero _)
  | succ n ih =>
    intro rem acc hlen hcomp
    cases rem with
    | nil =>
      rw [foataLoop_succ_halt I gl gs n _ acc
        (List.all_eq_true.mpr (fun g _ => by rw [stacksOf_nil]; rfl)),
        foataRef_nil, List.append_nil]
    | cons a t =>
      have hags : a ∈ gs := hcomp a (List.mem_cons_self a t)
      have hsta : stacksOf I gl (a :: t) a = true :: stacksOf I gl t a := by
        rw [stacksOf_cons]
        have hb : letterBlock I gl a a = [true] := by
          unfold letterBlock
          rw [if_pos rfl]
        rw [hb]
        rfl
      have hnotall : ¬(gs.all (fun g => (stacksOf I gl (a :: t) g).isEmpty) = true) := by
        intro hall
        have := List.all_eq_true.mp hall a hags
        rw [hsta] at this
        exact absurd this (by simp)
      have hfst : (foataCollect gs (stacksOf I gl (a :: t))).1 =
          gs.filter (fun g => movableb I g (a :: t)) := by
        rw [foataCollect_fst gs _ hnd]
        apply List.filter_congr
        intro g hg
        have hiff := stacksOf_head_true_iff I gl g hirr (hgs g hg) (a :: t)
        by_cases hm : movable I g (a :: t)
        · rw [(movableb_iff I g (a :: t)).mpr hm, decide_eq_true (hiff.mpr hm)]
        · rw [Bool.eq_false_iff.mpr (fun hb => hm ((movableb_iff I g (a :: t)).mp hb)),
            decide_eq_false (fun hb => hm (hiff.mp hb))]
      have hSne : gs.filter (fun g => movableb I g (a :: t)) ≠ [] := by
        intro hnil
        rw [List.filter_eq_nil_iff] at hnil
        exact hnil a hags (movableb_head I hirr a t)
      have hne2 : ¬((foataCollect gs (stacksOf I gl (a :: t))).1.isEmpty = true) := by
        rw [hfst]
        intro hie
        exact hSne (List.isEmpty_iff.mp hie)
      rw [foataLoop_succ_step I gl gs n _ acc hnotall hne2]
      have hSprops : ∀ g ∈ gs.filter (fun g => movableb I g (a :: t)),
          movable I g (a :: t) := fun g hg =>
        (movableb_iff I g (a :: t)).mp (List.mem_filter.mp hg).2
      have hSnodup : (gs.filter (fun g => movableb I g (a :: t))).Nodup :=
        List.Nodup.filter _ hnd
      have hSpair : ∀ g ∈ gs.filter (fun g => movableb I g (a :: t)),
          ∀ h ∈ gs.filter (fun g => movableb I g (a :: t)), g ≠ h → (g, h) ∈ I :=
        fun g hg h hh hne =>
          movable_pair_indep I hsym (a :: t) (hSprops g hg) (hSprops h hh) hne
      have hround : (foataCollect gs (stacksOf I gl (a :: t))).1.foldl
          (fun s g => resolve I gl g s) (foataCollect gs (stacksOf I gl (a :: t))).2 =
          stacksOf I gl
            (removeAll (gs.filter (fun g => movableb I g (a :: t))) (a :: t)) := by
        rw [foataCollect_snd_popsAll gs _ hnd, hfst]
        exact roundFires I gl hsym hirr _ (a :: t) hSnodup hSprops hSpair
      rw [hround, hfst]
      have hlt : (removeAll (gs.filter (fun g => movableb I g (a :: t))) (a :: t)).length
          < n := by
        have h1 := removeAll_lt (gs.filter (fun g => movableb I g (a :: t))) (a :: t) a
          (List.mem_filter.mpr ⟨hags, movableb_head I hirr a t⟩) (List.mem_cons_self a t)
        omega
      have hcomp2 : ∀ x ∈ removeAll (gs.filter (fun g => movableb I g (a :: t))) (a :: t),
          x ∈ gs := fun x hx =>
        hcomp x ((removeAll_sublist _ (a :: t)).mem hx)
      rw [ih _ _ hlt hcomp2, foataRef_eq_cons I gs (a :: t) hSne, List.append_assoc]
      rfl

theorem foataNF_eq (I : Rel) (el : List Run) (hsym : SymRel I) (hirr : IrrRel I) :
    foataNF I el = some (foataRef I (gensSet el) (expand el)) := by
  unfold foataNF
  by_cases he : el.isEmpty
  · rw [if_pos he]
    have hel : el = [] := List.isEmpty_iff.mp he
    subst hel
    rw [show expand ([] : List Run) = [] from rfl, foataRef_nil]
  · rw [if_neg he,
      funext (buildStacks_eq_stacksOf I (gensList el) el),
      foataLoop_eq I (gensList el) (gensSet el) hsym hirr (gensSet_count_pos el)
        (List.nodup_dedup _) ((expand el).length + 1) (expand el) []
        (Nat.lt_succ_self _) (expand_mem_gensSet el)]
    rfl

theorem movable_front_congr (I : Rel) (hirr : IrrRel I) {g : ℕ} {w : List ℕ}
    (hmov : movable I g w) : Congr I w (g :: w.erase g) := by
  obtain ⟨u, v, hw, hu, herase⟩ := movable_decomp_erase hirr hmov
  rw [herase, hw]
  exact congr_front I g u v hu

theorem congr_front_all (I : Rel) (hsym : SymRel I) (hirr : IrrRel I) :
    ∀ (S rem : List ℕ), S.Nodup → (∀ g ∈ S, movable I g rem) →
      (∀ g ∈ S, ∀ h ∈ S, g ≠ h → (g, h) ∈ I) →
      Congr I rem (S ++ removeAll S rem) := by
  intro S
  induction S with
  | nil =>
    intro rem _ _ _
    rw [removeAll_nil]
    exact Relation.EqvGen.refl rem
  | cons g S2 ih =>
    intro rem hnd hmov hpair
    obtain ⟨hgs, hnd2⟩ := List.nodup_cons.mp hnd
    have h1 : Congr I rem (g :: rem.erase g) :=
      movable_front_congr I hirr (hmov g (List.mem_cons_self g S2))
    have h2 : Congr I (rem.erase g) (S2 ++ removeAll S2 (rem.erase g)) :=
      ih (rem.erase g) hnd2
        (fun h hh => movable_erase_indep I (hmov h (List.mem_cons_of_mem g hh))
          (hpair g (List.mem_cons_self g S2) h (List.mem_cons_of_mem g hh)
            (fun he => hgs (he ▸ hh))))
        (fun a ha b hb hab => hpair a (List.mem_cons_of_mem g ha) b
          (List.mem_cons_of_mem g hb) hab)
    rw [removeAll_cons]
    exact Relation.EqvGen.trans _ _ _ h1 (congr_cons I g h2)

theorem foataRef_steps (I : Rel) (gs : List ℕ) (hsym : SymRel I) (hirr : IrrRel I)
    (hnd : gs.Nodup) :
    ∀ n (rem : List ℕ), rem.length ≤ n → (∀ x ∈ rem, x ∈ gs) →
      (∀ s ∈ foataRef I gs rem, s ≠ [] ∧ (∀ g ∈ s, ∀ h ∈ s, g ≠ h → (g, h) ∈ I)) ∧
        Congr I (foataRef I gs rem).flatten rem := by
  intro n
  induction n with
  | zero =>
    intro rem hlen _
    have : rem = [] := List.length_eq_zero.mp (Nat.le_zero.mp hlen)
    subst this
    rw [foataRef_nil]
    exact ⟨fun s hs => absurd hs (List.not_mem_nil s), Relation.EqvGen.refl _⟩
  | succ n ih =>
    intro rem hlen hcomp
    cases rem with
    | nil =>
      rw [foataRef_nil]
      exact ⟨fun s hs => absurd hs (List.not_mem_nil s), Relation.EqvGen.refl _⟩
    | cons a t =>
      have hags : a ∈ gs := hcomp a (List.mem_cons_self a t)
      have hSne : gs.filter (fun g => movableb I g (a :: t)) ≠ [] := by
        intro hnil
        rw [List.filter_eq_nil_iff] at hnil
        exact hnil a hags (movableb_head I hirr a t)
      have hSprops : ∀ g ∈ gs.filter (fun g => movableb I g (a :: t)),
          movable I g (a :: t) := fun g hg =>
        (movableb_iff I g (a :: t)).mp (List.mem_filter.mp hg).2
      have hSnodup : (gs.filter (fun g => movableb I g (a :: t))).Nodup :=
        List.Nodup.filter _ hnd
      have hSpair : ∀ g ∈ gs.filter (fun g => movableb I g (a :: t)),
          ∀ h ∈ gs.filter (fun g => movableb I g (a :: t)), g ≠ h → (g, h) ∈ I :=
        fun g hg h hh hne =>
          movable_pair_indep I hsym (a :: t) (hSprops g hg) (hSprops h hh) hne
      have hlt : (removeAll (gs.filter (fun g => movableb I g (a :: t))) (a :: t)).length
          ≤ n := by
        have h1 := removeAll_lt (gs.filter (fun g => movableb I g (a :: t))) (a :: t) a
          (List.mem_filter.mpr ⟨hags, movableb_head I hirr a t⟩) (List.mem_cons_self a t)
        omega
      have hcomp2 : ∀ x ∈ removeAll (gs.filter (fun g => movableb I g (a :: t))) (a :: t),
          x ∈ gs := fun x hx => hcomp x ((removeAll_sublist _ (a :: t)).mem hx)
      obtain ⟨ihsteps, ihcongr⟩ := ih _ hlt hcomp2
      rw [foataRef_eq_cons I gs (a :: t) hSne]
      constructor
      · intro s hs
        rcases List.mem_cons.mp hs with rfl | hs2
        · exact ⟨hSne, hSpair⟩
        · exact ihsteps s hs2
      · rw [List.flatten_cons]
        have h2 : Congr I
            (gs.filter (fun g => movableb I g (a :: t)) ++
              (foataRef I gs
                (removeAll (gs.filter (fun g => movableb I g (a :: t))) (a :: t))).flatten)
            (gs.filter (fun g => movableb I g (a :: t)) ++
              removeAll (gs.filter (fun g => movableb I g (a :: t))) (a :: t)) :=
          congr_append_left I _ ihcongr
        have h3 := congr_front_all I hsym hirr (gs.filter (fun g => movableb I g (a :: t)))
          (a :: t) hSnodup hSprops hSpair
        exact Relation.EqvGen.trans _ _ _ h2 (Relation.EqvGen.symm _ _ h3)

theorem transGen_iso {r s : ℕ → ℕ → Prop} (f : Equiv.Perm ℕ)
    (h : ∀ i j, r i j ↔ s (f i) (f j)) :
    ∀ i j, Relation.TransGen r i j ↔ Relation.TransGen s (f i) (f j) := by
  have fwd : ∀ i j, Relation.TransGen r i j → Relation.TransGen s (f i) (f j) := by
    intro i j ht
    induction ht with
    | single hr => exact Relation.TransGen.single ((h _ _).mp hr)
    | tail _ hr ih => exact Relation.TransGen.tail ih ((h _ _).mp hr)
  have bwd : ∀ a b, Relation.TransGen s a b → Relation.TransGen r (f.symm a) (f.symm b) := by
    intro a b hab
    induction hab with
    | single hr =>
      apply Relation.TransGen.single
      rw [h, Equiv.apply_symm_apply, Equiv.apply_symm_apply]
      exact hr
    | tail _ hr ih =>
      refine Relation.TransGen.tail ih ?_
      rw [h, Equiv.apply_symm_apply, Equiv.apply_symm_apply]
      exact hr
  intro i j
  constructor
  · exact fwd i j
  · intro ht
    have := bwd (f i) (f j) ht
    rwa [Equiv.symm_apply_apply, Equiv.symm_apply_apply] at this

theorem getD_cons_cons_two {a b : ℕ} {v : List ℕ} (m : ℕ) :
    (a :: b :: v).getD (m + 2) 0 = v.getD m 0 := rfl

theorem swap_letters (u v : List ℕ) (x y : ℕ) : ∀ k,
    (u ++ y :: x :: v).getD k 0 =
      (u ++ x :: y :: v).getD (Equiv.swap u.length (u.length + 1) k) 0 := by
  intro k
  rw [Equiv.swap_apply_def]
  by_cases h0 : k = u.length
  · rw [if_pos h0, h0,
      List.getD_append_right u (y :: x :: v) 0 u.length (Nat.le_refl _),
      List.getD_append_right u (x :: y :: v) 0 (u.length + 1) (Nat.le_succ _),
      Nat.sub_self, Nat.add_sub_cancel_left]
    rfl
  · rw [if_neg h0]
    by_cases h1 : k = u.length + 1
    · rw [if_pos h1, h1,
        List.getD_append_right u (y :: x :: v) 0 (u.length + 1) (Nat.le_succ _),
        List.getD_append_right u (x :: y :: v) 0 u.length (Nat.le_refl _),
        Nat.sub_self, Nat.add_sub_cancel_left]
      rfl
    · rw [if_neg h1]
      by_cases hlt : k < u.length
      · rw [List.getD_append u (y :: x :: v) 0 k hlt, List.getD_append u (x :: y :: v) 0 k hlt]
      · have hge : u.length + 2 ≤ k := by omega
        obtain ⟨m, rfl⟩ : ∃ m, k = u.length + 2 + m := ⟨k - (u.length + 2), by omega⟩
        rw [List.getD_append_right u (y :: x :: v) 0 _ (by omega),
          List.getD_append_right u (x :: y :: v) 0 _ (by omega)]
        have hm : u.length + 2 + m - u.length = m + 2 := by omega
        rw [hm, getD_cons_cons_two, getD_cons_cons_two]

theorem swap_edge_forward (I : Rel) (u v : List ℕ) (x y : ℕ) (hxy : (x, y) ∈ I) :
    ∀ i j, depEdge I (u ++ y :: x :: v) i j →
      depEdge I (u ++ x :: y :: v) (Equiv.swap u.length (u.length + 1) i)
        (Equiv.swap u.length (u.length + 1) j) := by
  intro i j hij
  obtain ⟨hlt, hjlen, hdep⟩ := hij
  have hlen2 : (u ++ y :: x :: v).length = u.length + 2 + v.length := by
    simp
    omega
  have hlen1 : (u ++ x :: y :: v).length = u.length + 2 + v.length := by
    simp
    omega
  have hnotboth : ¬(i = u.length ∧ j = u.length + 1) := by
    rintro ⟨rfl, rfl⟩
    apply hdep
    rw [List.getD_append_right u (y :: x :: v) 0 (u.length + 1) (Nat.le_succ _),
      List.getD_append_right u (y :: x :: v) 0 u.length (Nat.le_refl _),
      Nat.sub_self, Nat.add_sub_cancel_left]
    exact hxy
  refine ⟨?_, ?_, ?_⟩
  · rw [Equiv.swap_apply_def, Equiv.swap_apply_def]
    by_cases hi0 : i = u.length
    · subst hi0
      by_cases hj1 : j = u.length + 1
      · exact absurd ⟨rfl, hj1⟩ hnotboth
      · rw [if_pos rfl, if_neg (show ¬(j = u.length) from by omega), if_neg hj1]
        omega
    · by_cases hi1 : i = u.length + 1
      · rw [if_neg hi0, if_pos hi1, if_neg (show ¬(j = u.length) from by omega),
          if_neg (show ¬(j = u.length + 1) from by omega)]
        omega
      · rw [if_neg hi0, if_neg hi1]
        by_cases hj0 : j = u.length
        · rw [if_pos hj0]
          omega
        · rw [if_neg hj0]
          by_cases hj1 : j = u.length + 1
          · rw [if_pos hj1]
            omega
          · rw [if_neg hj1]
            exact hlt
  · rw [Equiv.swap_apply_def]
    rw [hlen2] at hjlen
    rw [hlen1]
    split_ifs <;> omega
  · rw [← swap_letters u v x y i, ← swap_letters u v x y j]
    exact hdep

theorem swap_edge_iff (I : Rel) (hsym : SymRel I) (u v : List ℕ) (x y : ℕ)
    (hxy : (x, y) ∈ I) :
    ∀ i j, depEdge I (u ++ y :: x :: v) i j ↔
      depEdge I (u ++ x :: y :: v) (Equiv.swap u.length (u.length + 1) i)
        (Equiv.swap u.length (u.length + 1) j) := by
  intro i j
  constructor
  · exact swap_edge_forward I u v x y hxy i j
  · intro h
    have h2 := swap_edge_forward I u v y x (hsym x y hxy)
      (Equiv.swap u.length (u.length + 1) i) (Equiv.swap u.length (u.length + 1) j) h
    rwa [Equiv.swap_apply_self, Equiv.swap_apply_self] at h2

theorem depGraph_data (I : Rel) (hsym : SymRel I) {w w2 : List ℕ} (h : Congr I w w2) :
    ∃ f : Equiv.Perm ℕ,
      (∀ k, w2.getD k 0 = w.getD (f k) 0) ∧
      (∀ k, k < w2.length ↔ f k < w.length) ∧
      (∀ i j, depEdge I w2 i j ↔ depEdge I w (f i) (f j)) := by
  induction h with
  | rel a b hr =>
    cases hr with
    | swap u v x y hxy =>
      refine ⟨Equiv.swap u.length (u.length + 1), swap_letters u v x y, ?_,
        swap_edge_iff I hsym u v x y hxy⟩
      intro k
      have hlen2 : (u ++ y :: x :: v).length = u.length + 2 + v.length := by
        simp
        omega
      have hlen1 : (u ++ x :: y :: v).length = u.length + 2 + v.length := by
        simp
        omega
      rw [hlen2, hlen1, Equiv.swap_apply_def]
      split_ifs <;> omega
  | refl a => exact ⟨Equiv.refl ℕ, fun k => rfl, fun k => Iff.rfl, fun i j => Iff.rfl⟩
  | symm a b hab ih =>
    obtain ⟨f, hl, hb, he⟩ := ih
    refine ⟨f.symm, ?_, ?_, ?_⟩
    · intro k
      have h2 := hl (f.symm k)
      rw [Equiv.apply_symm_apply] at h2
      exact h2.symm
    · intro k
      have h2 := hb (f.symm k)
      rw [Equiv.apply_symm_apply] at h2
      exact h2.symm
    · intro i j
      have h2 := he (f.symm i) (f.symm j)
      rw [Equiv.apply_symm_apply, Equiv.apply_symm_apply] at h2
      exact h2.symm
  | trans a b c hab hbc ih1 ih2 =>
    obtain ⟨f1, hl1, hb1, he1⟩ := ih1
    obtain ⟨f2, hl2, hb2, he2⟩ := ih2
    refine ⟨f2.trans f1, ?_, ?_, ?_⟩
    · intro k
      rw [hl2 k, hl1 (f2 k)]
      rfl
    · intro k
      rw [hb2 k, hb1 (f2 k)]
      rfl
    · intro i j
      rw [he2 i j, he1 (f2 i) (f2 j)]
      rfl

/-- The monoid on three generators with independence pairs 0-1 and 1-2
(symmetrically stored), used as a counterexample instance. -/
def M3 : TraceMonoid := mkTraceMonoid 3 [(0, 1), (1, 0), (1, 2), (2, 1)]

/-- The spec's worked-example monoid: generators a = 0, b = 1, c = 2 with the
single independence pair a-c (symmetrically stored). -/
def Mac : TraceMonoid := mkTraceMonoid 3 [(0, 2), (2, 0)]

/-- The trace monoid with zero generators. -/
def M0 : TraceMonoid := mkTraceMonoid 0 []

theorem symRel_M3 : SymRel M3.independence := by
  intro a b hab
  simp only [M3, mkTraceMonoid, List.mem_toFinset] at hab ⊢
  simp only [List.mem_cons, List.not_mem_nil, or_false, Prod.mk.injEq] at hab ⊢
  rcases hab with ⟨rfl, rfl⟩ | ⟨rfl, rfl⟩ | ⟨rfl, rfl⟩ | ⟨rfl, rfl⟩ <;> simp

theorem irrRel_M3 : IrrRel M3.independence := by
  intro a hab
  simp only [M3, mkTraceMonoid, List.mem_toFinset] at hab
  simp only [List.mem_cons, List.not_mem_nil, or_false, Prod.mk.injEq] at hab
  omega

theorem symRel_Mac : SymRel Mac.independence := by
  intro a b hab
  simp only [Mac, mkTraceMonoid, List.mem_toFinset] at hab ⊢
  simp only [List.mem_cons, List.not_mem_nil, or_false, Prod.mk.injEq] at hab ⊢
  rcases hab with ⟨rfl, rfl⟩ | ⟨rfl, rfl⟩ <;> simp

theorem irrRel_Mac : IrrRel Mac.independence := by
  intro a hab
  simp only [Mac, mkTraceMonoid, List.mem_toFinset] at hab
  simp only [List.mem_cons, List.not_mem_nil, or_false, Prod.mk.injEq] at hab
  omega

theorem congr_201_120 : Congr M3.independence [2, 0, 1] [1, 2, 0] := by
  have h1 : SwapStep M3.independence [2, 0, 1] [2, 1, 0] :=
    SwapStep.swap [2] [] 0 1 (by decide)
  have h2 : SwapStep M3.independence [2, 1, 0] [1, 2, 0] :=
    SwapStep.swap [] [0] 2 1 (by decide)
  exact Relation.EqvGen.trans _ _ _ (Relation.EqvGen.rel _ _ h1) (Relation.EqvGen.rel _ _ h2)

/-- C1: the claim states that `lexic_norm_form("sort")` and
`lexic_norm_form("stack")` agree on every trace.  On the monoid with
independence 0-1 and 1-2, the trace 2·0·1 refutes this: the insertion
algorithm returns 2·0·1 (its adjacent-only move test cannot move the 1 past
the 0 towards the independent 2), while the marker-stack algorithm returns
the congruent word 1·2·0.  The two outputs are distinct elements although
the two words are congruent, so the code violates the claim. -/
theorem C1_sort_stack_disagree :
    sortLexNF M3.independence [(2, 1), (0, 1), (1, 1)] = [(2, 1), (0, 1), (1, 1)] ∧
    stackLexNF M3.independence [(2, 1), (0, 1), (1, 1)] =
      some [(1, 1), (2, 1), (0, 1)] ∧
    ([(2, 1), (0, 1), (1, 1)] : List Run) ≠ [(1, 1), (2, 1), (0, 1)] ∧
    Congr M3.independence [2, 0, 1] [1, 2, 0] :=
  ⟨by decide, by decide, by decide, congr_201_120⟩

/-- C2: the claim states that `words(n)` has exactly one representative per
congruence class and that its size equals `number_of_words(n)`.  On the
monoid with independence 0-1 and 1-2 at length 3 the code enumerates 16
words while the growth series counts 15 classes; the congruent pair
2·0·1 and 1·2·0 both pass the adjacent-only canonicity filter. -/
theorem C2_words_overcount :
    (wordsNat M3 3).length = 16 ∧
    numberOfWords M3 3 = .ok 15 ∧
    [(2, 1), (0, 1), (1, 1)] ∈ wordsNat M3 3 ∧
    [(1, 1), (2, 1), (0, 1)] ∈ wordsNat M3 3 ∧
    Congr M3.independence [2, 0, 1] [1, 2, 0] :=
  ⟨by decide, rfl, by decide, by decide, congr_201_120⟩

/-- C3: on the worked example (a = 0, b = 1, c = 2, independence a-c) the
normal form of c·a·b is a·c·b and the Foata form of a·c·b is
({a,c})({b}), as the claim states; but `number_of_words` returns 1, 2, 3
for lengths 0, 1, 2 instead of the claimed 1, 3, 8, because
`independence_graph` is built from the edge list alone and omits the
isolated generator b, so the clique sequence is 1, 2, 1 instead of
1, 3, 1.  The enumeration `words` itself does produce 3 and 8 words,
contradicting the counting function. -/
theorem C3_worked_example :
    lexicNormForm Mac.independence "sort" [(2, 1), (0, 1), (1, 1)] =
      .ok (some [(0, 1), (2, 1), (1, 1)]) ∧
    foataNF Mac.independence [(0, 1), (2, 1), (1, 1)] = some [[0, 2], [1]] ∧
    numberOfWords Mac 0 = .ok 1 ∧
    numberOfWords Mac 1 = .ok 2 ∧
    numberOfWords Mac 2 = .ok 3 ∧
    (wordsNat Mac 1).length = 3 ∧
    (wordsNat Mac 2).length = 8 :=
  ⟨rfl, by decide, rfl, rfl, rfl, by decide, by decide⟩

/-- C4: for every trace over a symmetric irreflexive independence relation,
`foata_norm_form` terminates and returns steps that are nonempty, pairwise
independent within each step, and whose left-to-right concatenation is
congruent to the occurrence expansion of the original trace. -/
theorem C4_foata_correct (I : Rel) (el : List Run) (hsym : SymRel I) (hirr : IrrRel I) :
    ∃ steps, foataNF I el = some steps ∧
      (∀ s ∈ steps, s ≠ []) ∧
      (∀ s ∈ steps, ∀ g ∈ s, ∀ h ∈ s, g ≠ h → (g, h) ∈ I) ∧
      Congr I steps.flatten (expand el) := by
  refine ⟨foataRef I (gensSet el) (expand el), foataNF_eq I el hsym hirr, ?_, ?_, ?_⟩
  · obtain ⟨hsteps, _⟩ := foataRef_steps I (gensSet el) hsym hirr (List.nodup_dedup _)
      (expand el).length (expand el) (Nat.le_refl _) (expand_mem_gensSet el)
    exact fun s hs => (hsteps s hs).1
  · obtain ⟨hsteps, _⟩ := foataRef_steps I (gensSet el) hsym hirr (List.nodup_dedup _)
      (expand el).length (expand el) (Nat.le_refl _) (expand_mem_gensSet el)
    exact fun s hs => (hsteps s hs).2
  · obtain ⟨_, hcongr⟩ := foataRef_steps I (gensSet el) hsym hirr (List.nodup_dedup _)
      (expand el).length (expand el) (Nat.le_refl _) (expand_mem_gensSet el)
    exact hcongr

/-- Witness for C4 at the worked example trace a·c·b. -/
theorem C4_witness :
    ∃ steps, foataNF Mac.independence [(0, 1), (2, 1), (1, 1)] = some steps ∧
      (∀ s ∈ steps, s ≠ []) ∧
      (∀ s ∈ steps, ∀ g ∈ s, ∀ h ∈ s, g ≠ h → (g, h) ∈ Mac.independence) ∧
      Congr Mac.independence steps.flatten (expand [(0, 1), (2, 1), (1, 1)]) :=
  C4_foata_correct Mac.independence [(0, 1), (2, 1), (1, 1)] symRel_Mac irrRel_Mac

/-- C5: both normal-form algorithms return run sequences satisfying the
representation invariant: positive multiplicities and no two adjacent runs
with the same generator.  Both rebuild their result through the element
constructor, which recompresses runs. -/
theorem C5_run_invariant (I : Rel) (el : List Run) :
    (noAdjDup (sortLexNF I el) ∧ allPos (sortLexNF I el)) ∧
    (∀ out, stackLexNF I el = some out → noAdjDup out ∧ allPos out) := by
  refine ⟨⟨noAdjDup_mkRuns _, allPos_mkRuns _⟩, ?_⟩
  intro out hout
  unfold stackLexNF at hout
  by_cases he : el.isEmpty
  · rw [if_pos he] at hout
    injection hout with h
    subst h
    rw [List.isEmpty_iff] at he
    subst he
    exact ⟨List.chain'_nil, fun r hr => absurd hr (List.not_mem_nil r)⟩
  · rw [if_neg he] at hout
    obtain ⟨o, _, rfl⟩ := Option.map_eq_some'.mp hout
    exact ⟨noAdjDup_mkRuns _, allPos_mkRuns _⟩

/-- Witness for C5 on the worked example trace c·a·b. -/
theorem C5_witness :
    (noAdjDup (sortLexNF Mac.independence [(2, 1), (0, 1), (1, 1)]) ∧
      allPos (sortLexNF Mac.independence [(2, 1), (0, 1), (1, 1)])) ∧
    (noAdjDup [(0, 1), (2, 1), (1, 1)] ∧ allPos ([(0, 1), (2, 1), (1, 1)] : List Run)) :=
  ⟨(C5_run_invariant Mac.independence [(2, 1), (0, 1), (1, 1)]).1,
    (C5_run_invariant Mac.independence [(2, 1), (0, 1), (1, 1)]).2
      [(0, 1), (2, 1), (1, 1)] (by decide)⟩

/-- C6 counterexample: the constructor stores the pairs exactly as given —
no symmetrization ((0,1) stored without (1,0)), self-pairs accepted,
out-of-range indices accepted, and no error is ever raised. -/
theorem C6_counterexample :
    (0, 1) ∈ (mkTraceMonoid 2 [(0, 1)]).independence ∧
    (1, 0) ∉ (mkTraceMonoid 2 [(0, 1)]).independence ∧
    (0, 0) ∈ (mkTraceMonoid 1 [(0, 0)]).independence ∧
    (5, 7) ∈ (mkTraceMonoid 2 [(5, 7)]).independence := by decide

/-- C6 amended: `TraceMonoid.__init__` merely stores the given index pairs
as a set; a pair belongs to the stored independence relation exactly when
it was given, with no symmetrization, deduplication beyond set semantics,
range check or self-pair check. -/
theorem C6_amended (n : ℕ) (I : List (ℕ × ℕ)) (p : ℕ × ℕ) :
    p ∈ (mkTraceMonoid n I).independence ↔ p ∈ I := List.mem_toFinset

/-- Python indexing of the empty list always raises `IndexError`. -/
theorem pyGet_nil (i : ℤ) : pyGet [] i = Except.error PyErr.indexError := by
  unfold pyGet
  dsimp only
  split_ifs with h1 <;> try rfl
  all_goals
    exfalso
    have hb : ((List.length ([] : List ℤ) : ℕ) : ℤ) = 0 := rfl
    omega

/-- C7 counterexample: at length -1 `words` raises `ValueError` but
`number_of_words` raises `IndexError` (it indexes the coefficient list with
a negative index and never validates the length), so the two functions do
not reject negative lengths with a common error as claimed. -/
theorem C7_counterexample :
    words Mac (-1) = .error .valueError ∧
    numberOfWords Mac (-1) = .error .indexError ∧
    (Except.error PyErr.indexError : Except PyErr ℤ) ≠ .error .valueError :=
  ⟨rfl, rfl, by intro h; injection h with h2; cases h2⟩

/-- C7 amended: for every negative length, `words` raises `ValueError`
while `number_of_words` raises `IndexError`: the series is expanded to
precision `(length+1).toNat = 0`, giving an empty coefficient list which
every Python index misses. -/
theorem C7_amended (M : TraceMonoid) (len : ℤ) (h : len < 0) :
    words M len = .error .valueError ∧ numberOfWords M len = .error .indexError := by
  constructor
  · unfold words
    rw [if_pos h]
  · unfold numberOfWords
    have h0 : (len + 1).toNat = 0 := by omega
    rw [h0]
    have hs : seriesCoeffs (signedSeq M.independence) 0 = [] := rfl
    rw [hs, List.filter_nil, pyGet_nil]

/-- Witness for C7 at the worked-example monoid and length -1. -/
theorem C7_witness :
    words Mac (-2) = .error .valueError ∧ numberOfWords Mac (-2) = .error .indexError :=
  C7_amended Mac (-2) (by decide)

/-- C8: congruent words have the same dependency graph up to a relabeling
of occurrence positions, and hence identical transitive closures up to the
same relabeling: the happens-before relation is linearization-independent. -/
theorem C8_graph_invariance (I : Rel) (w w2 : List ℕ) (hsym : SymRel I)
    (h : Congr I w w2) :
    ∃ f : Equiv.Perm ℕ,
      (∀ k, w2.getD k 0 = w.getD (f k) 0) ∧
      (∀ k, k < w2.length ↔ f k < w.length) ∧
      (∀ i j, depEdge I w2 i j ↔ depEdge I w (f i) (f j)) ∧
      (∀ i j, Relation.TransGen (depEdge I w2) i j ↔
        Relation.TransGen (depEdge I w) (f i) (f j)) := by
  obtain ⟨f, hl, hb, he⟩ := depGraph_data I hsym h
  exact ⟨f, hl, hb, he, transGen_iso f he⟩

/-- Witness for C8 on the congruent pair 2·0·1 and 1·2·0. -/
theorem C8_witness :
    ∃ f : Equiv.Perm ℕ,
      (∀ k, ([1, 2, 0] : List ℕ).getD k 0 = ([2, 0, 1] : List ℕ).getD (f k) 0) ∧
      (∀ k, k < ([1, 2, 0] : List ℕ).length ↔ f k < ([2, 0, 1] : List ℕ).length) ∧
      (∀ i j, depEdge M3.independence [1, 2, 0] i j ↔
        depEdge M3.independence [2, 0, 1] (f i) (f j)) ∧
      (∀ i j, Relation.TransGen (depEdge M3.independence [1, 2, 0]) i j ↔
        Relation.TransGen (depEdge M3.independence [2, 0, 1]) (f i) (f j)) :=
  C8_graph_invariance M3.independence [2, 0, 1] [1, 2, 0] symRel_M3 congr_201_120

/-- C9: for each supported algorithm selector, `lexic_norm_form` is
idempotent on traces over a symmetric irreflexive independence relation
with positive run multiplicities. -/
theorem C9_idempotent (I : Rel) (alg : String) (el : List Run)
    (halg : alg = "sort" ∨ alg = "stack") (hsym : SymRel I) (hirr : IrrRel I)
    (hpos : allPos el) :
    ∃ y, lexicNormForm I alg el = .ok (some y) ∧
      lexicNormForm I alg y = .ok (some y) := by
  rcases halg with rfl | rfl
  · refine ⟨sortLexNF I el, ?_, ?_⟩
    · unfold lexicNormForm
      rw [if_pos rfl]
    · unfold lexicNormForm
      rw [if_pos rfl, sortLexNF_idem I el hpos]
  · obtain ⟨y, h1, h2⟩ := stackLexNF_idem I el hsym hirr
    refine ⟨y, ?_, ?_⟩
    · unfold lexicNormForm
      rw [if_neg (by decide), if_pos rfl, h1]
    · unfold lexicNormForm
      rw [if_neg (by decide), if_pos rfl, h2]

/-- Witness for C9 with the sort algorithm on the worked example. -/
theorem C9_witness :
    ∃ y, lexicNormForm Mac.independence "sort" [(2, 1), (0, 1), (1, 1)] = .ok (some y) ∧
      lexicNormForm Mac.independence "sort" y = .ok (some y) :=
  C9_idempotent Mac.independence "sort" [(2, 1), (0, 1), (1, 1)] (Or.inl rfl)
    symRel_Mac irrRel_Mac (by decide)

/-- A coefficient past the first of `1/1` is zero. -/
theorem nextCoeff_one (prev : List ℤ) (h : 1 ≤ prev.length) : nextCoeff [1] prev = 0 := by
  unfold nextCoeff
  rw [if_neg (by omega)]
  have hz : ((List.range prev.length).map
      (fun j => ([1] : List ℤ).getD (prev.length - j) 0 * prev.getD j 0)).sum = 0 := by
    apply List.sum_eq_zero
    intro x hx
    obtain ⟨j, hj, rfl⟩ := List.mem_map.mp hx
    have hjl : j < prev.length := List.mem_range.mp hj
    have hd : ([1] : List ℤ).getD (prev.length - j) 0 = 0 := by
      cases hk : prev.length - j with
      | zero => omega
      | succ k => rfl
    rw [hd, zero_mul]
  rw [hz, sub_zero]

/-- The expansion of `1/1` to positive precision is `1` followed by zeros. -/
theorem seriesCoeffs_one (n : ℕ) (h : 1 ≤ n) :
    seriesCoeffs [1] n = 1 :: List.replicate (n - 1) 0 := by
  induction n with
  | zero => omega
  | succ m ih =>
    by_cases hm : m = 0
    · subst hm
      rfl
    · have hm1 : 1 ≤ m := Nat.one_le_iff_ne_zero.mpr hm
      have hprev := ih hm1
      show seriesCoeffs [1] m ++ [nextCoeff [1] (seriesCoeffs [1] m)] = _
      rw [hprev, nextCoeff_one (1 :: List.replicate (m - 1) 0) (by simp)]
      have h2 : m + 1 - 1 = (m - 1) + 1 := by omega
      rw [h2, List.replicate_succ']
      rfl

/-- Zeros never pass the nonzero-coefficient filter. -/
theorem filter_ne_zero_replicate (k : ℕ) :
    (List.replicate k (0 : ℤ)).filter (fun c => decide (c ≠ 0)) = [] := by
  induction k with
  | zero => rfl
  | succ m ih =>
    rw [List.replicate_succ, List.filter_cons]
    simpa using ih

/-- The nonzero-coefficient filter of `1` followed by zeros keeps only `1`. -/
theorem filter_one_replicate_zero (k : ℕ) :
    (1 :: List.replicate k (0 : ℤ)).filter (fun c => decide (c ≠ 0)) = [1] := by
  rw [List.filter_cons, filter_ne_zero_replicate]
  simp

/-- C10: on the zero-generator monoid, `number_of_words(0)` returns 1 but
every positive length raises `IndexError`: the clique sequence is the
single coefficient `[1]`, the expanded series has nonzero-coefficient list
`[1]`, and the Python index `length ≥ 1` falls past its end. -/
theorem C10_zero_monoid (len : ℤ) (h : 1 ≤ len) :
    numberOfWords M0 0 = .ok 1 ∧ numberOfWords M0 len = .error .indexError := by
  refine ⟨rfl, ?_⟩
  unfold numberOfWords
  have hs : signedSeq M0.independence = [1] := by decide
  rw [hs]
  have h1 : 1 ≤ (len + 1).toNat := by omega
  rw [seriesCoeffs_one _ h1, filter_one_replicate_zero]
  unfold pyGet
  dsimp only
  rw [if_neg (by omega : ¬len < 0)]
  rw [if_neg (by
    simp only [List.length_cons, List.length_nil, Nat.cast_one]
    omega)]

/-- Witness for C10 at length 1. -/
theorem C10_witness :
    numberOfWords M0 0 = .ok 1 ∧ numberOfWords M0 1 = .error .indexError :=
  C10_zero_monoid 1 (by decide)

end TraceMon
